import Mathlib

/-!
# Verification of the specrl suffix-cache engine

Shallow embedding of the suffix-tree cache (`src/specrl/suffix_cache`):
the Ukkonen suffix-tree builder (`suffix_tree.cc`), the speculation
algorithms, the per-request query state (`suffix_cache.cc`) and the
composite-sequence assembly of the update server
(`rollout_cache_server.cc`).

Modelling conventions:
* C++ `int` tokens and counts become `Int`.
* The node arena (`_bulk_memory` plus `offset_ptr<Node>`) becomes an
  `Array Node` indexed by `Nat` node ids; `nullptr` becomes `Option Nat`.
* `std::map<int, NodePtr>` children maps become association lists kept
  sorted by key, which also fixes the iteration order the C++ code sees.
* `float` probabilities become `ℚ` (exact arithmetic; the concrete
  scenarios below only involve dyadic values where `float` is exact).
* Unbounded C++ loops (Ukkonen extension, speculation walks, post-order
  count recursion) take an explicit fuel argument; `none` models
  non-termination / fuel exhaustion.
* C++ exceptions become `Except String`.
-/

set_option maxRecDepth 10000

namespace SpecRL

/-- A node of the suffix tree, `struct Node` of `suffix_tree.h`.
`children` is the `std::map<int, NodePtr>`: an association list sorted
by key (the first token of the child's edge). -/
structure Node where
  count : Int := 0
  parent : Option Nat := none
  children : List (Int × Nat) := []
  seqId : Int := -1
  start : Int := 0
  length : Int := 0
  suffixLink : Option Nat := none
  deriving Repr, DecidableEq, Inhabited

/-- `state` entry of `_ukkonen_states` (`struct UkkonenState`); the
unused `last_pos`/`last_node` cache fields are omitted.  The default
mirrors the C++ default constructor (where `active_node` is null and is
always overwritten before use; we use node id 0). -/
structure UkState where
  activeNode : Nat := 0
  activeEdge : Int := -1
  activeLength : Int := 0
  remaining : Int := 0
  deriving Repr, DecidableEq, Inhabited

/-- Read `seq[i]` with the C++ in-bounds assumption made total
(out-of-bounds reads, which are UB in the source, return 0). -/
def tokAt (s : List Int) (i : Int) : Int :=
  s.getD i.toNat 0

/-- Lookup in a sorted `std::map<int, _>` association list. -/
def childFind (l : List (Int × Nat)) (k : Int) : Option Nat :=
  match l with
  | [] => none
  | (k', v) :: rest => if k = k' then some v else childFind rest k

/-- `children[k] = v` on a `std::map<int, NodePtr>`: insert or assign,
keeping the list sorted by key. -/
def childSet (l : List (Int × Nat)) (k : Int) (v : Nat) : List (Int × Nat) :=
  match l with
  | [] => [(k, v)]
  | (k', v') :: rest =>
    if k < k' then (k, v) :: (k', v') :: rest
    else if k = k' then (k, v) :: rest
    else (k', v') :: childSet rest k v

/-- Lookup in an association list (`_seqs`, `_ukkonen_states`, the
`SuffixCache` maps, the shared tree map). -/
def amFind {κ α : Type} [DecidableEq κ] (l : List (κ × α)) (k : κ) : Option α :=
  match l with
  | [] => none
  | (k', v) :: rest => if k = k' then some v else amFind rest k

/-- Insert-or-assign in an association list. -/
def amSet {κ α : Type} [DecidableEq κ] (l : List (κ × α)) (k : κ) (v : α) :
    List (κ × α) :=
  match l with
  | [] => [(k, v)]
  | (k', v') :: rest =>
    if k = k' then (k, v) :: rest else (k', v') :: amSet rest k v

/-- `map.erase(k)`: remove the binding(s) for `k`. -/
def amErase {κ α : Type} [DecidableEq κ] (l : List (κ × α)) (k : κ) :
    List (κ × α) :=
  match l with
  | [] => []
  | kv :: rest => if kv.1 = k then amErase rest k else kv :: amErase rest k

/-- Arena read: dereference a node id (`offset_ptr<Node>`).  Reading an
id outside the arena (UB in the source) yields a default-constructed
node. -/
def getN (a : Array Node) (i : Nat) : Node :=
  a.getD i {}

/-- Arena write of a whole node. -/
def setN (a : Array Node) (i : Nat) (nd : Node) : Array Node :=
  a.setD i nd

/-- The state of one `SuffixTree` object. `bulkAllocated` models
`_bulk_memory.memory_block != nullptr`. -/
structure Tree where
  arena : Array Node := #[]
  root : Option Nat := none
  seqs : List (Int × List Int) := []
  states : List (Int × UkState) := []
  bulkAllocated : Bool := false
  deriving Repr, DecidableEq, Inhabited

/-- A freshly constructed `SuffixTree(alloc)`: no root, no sequences,
no bulk memory. -/
def emptyTree : Tree := {}

/-- `struct Candidate` of `suffix_tree.h` (float fields as `ℚ`). -/
structure Candidate where
  tokenIds : List Int := []
  parents : List Int := []
  probs : List ℚ := []
  score : ℚ := 0
  matchLen : Int := 0
  deriving Repr, DecidableEq, Inhabited

/-! ## Ukkonen construction (`SuffixTree::extend` and helpers) -/

/-- `SuffixTree::_get_edge_length(node, seq_id, pos)`. -/
def getEdgeLength (arena : Array Node) (root : Nat) (seqs : List (Int × List Int))
    (id : Nat) (seqId : Int) (pos : Int) : Int :=
  if id = root then 0
  else
    let nd := getN arena id
    if nd.length = -1 then
      if nd.seqId = seqId then pos - nd.start + 1
      else (((amFind seqs nd.seqId).getD []).length : Int) - nd.start
    else nd.length

/-- `SuffixTree::_create_leaf_node`: push a fresh leaf onto the arena
(`_create_node_from_bulk` = bump allocation) and return its id. -/
def createLeaf (arena : Array Node) (seqId : Int) (pos : Int) (parent : Nat) :
    Array Node × Nat :=
  let id := arena.size
  let leaf : Node :=
    { count := 1
      parent := some parent
      children := []
      seqId := seqId
      start := pos
      length := -1
      suffixLink := none }
  (arena.push leaf, id)

/-- `SuffixTree::_split_edge(node, split_pos, ...)`: split the edge of
`nodeId` at `splitPos`, returning the updated arena and the id of the
new internal node. -/
def splitEdge (arena : Array Node) (seqs : List (Int × List Int))
    (nodeId : Nat) (splitPos : Int) : Array Node × Nat :=
  let nd := getN arena nodeId
  let sid := arena.size
  let splitNode : Node :=
    { count := 0
      parent := nd.parent
      children := []
      seqId := nd.seqId
      start := nd.start
      length := splitPos
      suffixLink := none }
  let arena := arena.push splitNode
  -- update parent's child pointer to point to the split node
  let splitSeq := (amFind seqs splitNode.seqId).getD []
  let firstChar := tokAt splitSeq splitNode.start
  let arena :=
    match splitNode.parent with
    | some p =>
      let pn := getN arena p
      setN arena p { pn with children := childSet pn.children firstChar sid }
    | none => arena
  -- update the original node
  let nd2 := getN arena nodeId
  let newLen := if nd2.length ≠ -1 then nd2.length - splitPos else nd2.length
  let nd2 := { nd2 with
      parent := some sid
      start := nd2.start + splitPos
      length := newLen }
  let arena := setN arena nodeId nd2
  -- add the original node as a child of the split node
  let nodeSeq := (amFind seqs nd2.seqId).getD []
  let splitChar := tokAt nodeSeq nd2.start
  let sn := getN arena sid
  let arena := setN arena sid { sn with children := childSet sn.children splitChar nodeId }
  (arena, sid)

/-- The "move to next suffix" step at the bottom of the
`while (remaining_suffixes > 0)` loop of `_extend_tree`. -/
def nextSuffix (arena : Array Node) (root : Nat) (pos : Int) (st : UkState) : UkState :=
  let st := { st with remaining := st.remaining - 1 }
  if st.activeNode = root ∧ st.activeLength > 0 then
    { st with
      activeLength := st.activeLength - 1
      activeEdge := pos - st.remaining + 1 }
  else if st.activeNode ≠ root then
    { st with activeNode :=
        match (getN arena st.activeNode).suffixLink with
        | some sl => sl
        | none => root }
  else st

/-- The `while (state.remaining_suffixes > 0)` loop body of
`SuffixTree::_extend_tree`, with fuel.  Returns the arena, the Ukkonen
state and the pending `last_new_node` when the loop exits (by the loop
condition, a `break`, or the showstopper rule); `none` on fuel
exhaustion (the C++ loop not terminating). -/
def extendTreeLoop (root : Nat) (seqs : List (Int × List Int)) (seqId : Int)
    (seq : List Int) (pos : Int) (cur : Int) :
    Nat → Array Node → UkState → Option Nat → Option (Array Node × UkState × Option Nat)
  | 0, _, _, _ => none
  | fuel+1, arena, st, lastNew =>
    if st.remaining ≤ 0 then some (arena, st, lastNew)
    else
      let st := if st.activeLength = 0 then { st with activeEdge := pos } else st
      let searchChar := if st.activeLength = 0 then cur else tokAt seq st.activeEdge
      match childFind (getN arena st.activeNode).children searchChar with
      | none =>
        -- create a new leaf under the active node
        let (arena, leaf) := createLeaf arena seqId pos st.activeNode
        let an := getN arena st.activeNode
        let arena := setN arena st.activeNode
          { an with children := childSet an.children cur leaf }
        let (arena, lastNew) :=
          match lastNew with
          | some ln =>
            (setN arena ln { getN arena ln with suffixLink := some st.activeNode }, none)
          | none => (arena, none)
        extendTreeLoop root seqs seqId seq pos cur fuel arena
          (nextSuffix arena root pos st) lastNew
      | some child =>
        let el := getEdgeLength arena root seqs child seqId pos
        if st.activeLength ≥ el then
          -- walk down
          let st' := { st with
            activeEdge := st.activeEdge + el
            activeLength := st.activeLength - el
            activeNode := child }
          extendTreeLoop root seqs seqId seq pos cur fuel arena st' lastNew
        else
          let childNd := getN arena child
          let edgeCharPos := childNd.start + st.activeLength
          let childSeq := (amFind seqs childNd.seqId).getD []
          if childNd.length = -1 ∧ edgeCharPos ≥ (childSeq.length : Int) then
            some (arena, st, lastNew)  -- defensive bounds break
          else if childNd.length ≠ -1 ∧ st.activeLength ≥ childNd.length then
            some (arena, st, lastNew)  -- defensive bounds break
          else
            let edgeChar := tokAt childSeq edgeCharPos
            if edgeChar = cur then
              -- showstopper rule
              let st := { st with activeLength := st.activeLength + 1 }
              let (arena, lastNew) :=
                match lastNew with
                | some ln =>
                  if st.activeNode ≠ root then
                    (setN arena ln { getN arena ln with suffixLink := some st.activeNode },
                     none)
                  else (arena, some ln)
                | none => (arena, none)
              some (arena, st, lastNew)
            else
              -- mismatch: split the edge and add a new leaf
              let (arena, sid) := splitEdge arena seqs child st.activeLength
              let (arena, leaf) := createLeaf arena seqId pos sid
              let sn := getN arena sid
              let arena := setN arena sid
                { sn with children := childSet sn.children cur leaf }
              let arena :=
                match lastNew with
                | some ln => setN arena ln { getN arena ln with suffixLink := some sid }
                | none => arena
              extendTreeLoop root seqs seqId seq pos cur fuel arena
                (nextSuffix arena root pos st) (some sid)

/-- `SuffixTree::_extend_tree(seq_id, pos)`. -/
def extendTree (fuel : Nat) (root : Nat) (seqs : List (Int × List Int)) (seqId : Int)
    (pos : Int) (arena : Array Node) (st : UkState) : Option (Array Node × UkState) :=
  let seq := (amFind seqs seqId).getD []
  let cur := tokAt seq pos
  let st := { st with remaining := st.remaining + 1 }
  match extendTreeLoop root seqs seqId seq pos cur fuel arena st none with
  | none => none
  | some (arena, st, lastNew) =>
    let arena :=
      match lastNew with
      | some ln => setN arena ln { getN arena ln with suffixLink := some root }
      | none => arena
    some (arena, st)

/-- `SuffixTree::_update_node_counts`: post-order pass setting
`count(leaf) = 1` and `count(internal) = Σ count(children)`, with fuel
bounding the recursion depth. -/
def updateCounts : Nat → Array Node → Nat → Option (Array Node × Int)
  | 0, _, _ => none
  | fuel+1, a, id =>
    let nd := getN a id
    if nd.children = [] then
      some (setN a id { nd with count := 1 }, 1)
    else
      let res := nd.children.foldl
        (fun (acc : Option (Array Node × Int)) kv =>
          match acc with
          | none => none
          | some (a1, tot) =>
            match updateCounts fuel a1 kv.2 with
            | none => none
            | some (a2, cnt) => some (a2, tot + cnt))
        (some (a, 0))
      match res with
      | none => none
      | some (a1, tot) =>
        let nd1 := getN a1 id
        some (setN a1 id { nd1 with count := tot }, tot)

/-- The `for (auto& kv : node->children)` accumulation inside
`_update_node_counts`, in recursive form (see
`updateCounts_eq_list`). -/
def updateCountsList (fuel : Nat) :
    Array Node → List (Int × Nat) → Option (Array Node × Int)
  | a, [] => some (a, 0)
  | a, kv :: rest =>
    match updateCounts fuel a kv.2 with
    | none => none
    | some (a1, cnt) =>
      match updateCountsList fuel a1 rest with
      | none => none
      | some (a2, tot) => some (a2, cnt + tot)

/-- The per-token loop of `SuffixTree::extend`: `seq.push_back(token);
_extend_tree(seq_id, pos)` for each token. -/
def extendTokens (fuel : Nat) (root : Nat) (seqId : Int) :
    List Int → Array Node → List (Int × List Int) → UkState →
    Option (Array Node × List (Int × List Int) × UkState)
  | [], arena, seqs, st => some (arena, seqs, st)
  | tok :: rest, arena, seqs, st =>
    let seq := (amFind seqs seqId).getD [] ++ [tok]
    let seqs := amSet seqs seqId seq
    let pos : Int := (seq.length : Int) - 1
    match extendTree fuel root seqs seqId pos arena st with
    | none => none
    | some (arena, st) => extendTokens fuel root seqId rest arena seqs st

/-- The portion of `SuffixTree::extend(seq_id, tokens)` before the
final `_update_node_counts` pass: bulk allocation, lazy root creation,
`try_emplace` of the sequence and Ukkonen state, and the per-token
Ukkonen loop.  Returns the grown arena, the root id, and the updated
sequence and state maps. -/
def extendCore (fuel : Nat) (t : Tree) (seqId : Int) (tokens : List Int) :
    Option (Array Node × Nat × List (Int × List Int) × List (Int × UkState)) :=
  -- _allocate_bulk_memory (tracked by the bulkAllocated flag on the result)
  -- lazy root creation (suffix link points to itself)
  let (arena, root) :=
    match t.root with
    | some r => (t.arena, r)
    | none =>
      let rid := t.arena.size
      (t.arena.push { ({} : Node) with suffixLink := some rid }, rid)
  -- try_emplace for the sequence and the Ukkonen state
  let seqs :=
    match amFind t.seqs seqId with
    | some _ => t.seqs
    | none => amSet t.seqs seqId []
  let states :=
    match amFind t.states seqId with
    | some _ => t.states
    | none => amSet t.states seqId {}
  let seq0 := (amFind seqs seqId).getD []
  let st0 : UkState :=
    if seq0 = [] then
      { activeNode := root, activeEdge := -1, activeLength := 0, remaining := 0 }
    else (amFind states seqId).getD {}
  match extendTokens fuel root seqId tokens arena seqs st0 with
  | none => none
  | some (arena', seqs2, stF) =>
    some (arena', root, seqs2, amSet states seqId stF)

/-- `SuffixTree::extend(seq_id, tokens)`.  Returns `none` only when one
of the unbounded inner loops runs out of fuel. -/
def Tree.extend (fuel : Nat) (t : Tree) (seqId : Int) (tokens : List Int) :
    Option Tree :=
  if tokens = [] then some t
  else
    match extendCore fuel t seqId tokens with
    | none => none
    | some (arena', root, seqs2, states2) =>
      match updateCounts fuel arena' root with
      | none => none
      | some (arena2, _) =>
        some { arena := arena2
               root := some root
               seqs := seqs2
               states := states2
               bulkAllocated := true }

/-! ## Pattern matching (`SuffixTree::_match_pattern`) -/

/-- The effective edge length of a node as computed at the top of
`_speculate_path` / `_speculate_tree` and inside `_match_pattern`:
`(node->length == -1) ? seq.size() - node->start : node->length`. -/
def effLen (arena : Array Node) (seqs : List (Int × List Int)) (id : Nat) : Int :=
  let nd := getN arena id
  if nd.length = -1 then (((amFind seqs nd.seqId).getD []).length : Int) - nd.start
  else nd.length

/-- The inner `while (true)` of `_match_pattern`: starting from
`(cur, edgeIdx)`, move across exhausted edges to the child for
character `c`, stopping at the root child or in the middle of an edge.
`none` models both a failed `children.find` and (at fuel 0) a cycle the
C++ loop would never leave. -/
def matchJump (arena : Array Node) (root : Nat) (seqs : List (Int × List Int))
    (c : Int) : Nat → Nat → Int → Option (Nat × Int)
  | 0, _, _ => none
  | fuel+1, cur, edgeIdx =>
    if cur = root then
      match childFind (getN arena root).children c with
      | none => none
      | some ch => some (ch, 0)
    else
      let el := effLen arena seqs cur
      if edgeIdx ≥ el then
        match childFind (getN arena cur).children c with
        | none => none
        | some ch => matchJump arena root seqs c fuel ch 0
      else some (cur, edgeIdx)

/-- The per-character loop of `_match_pattern`. -/
def matchChars (arena : Array Node) (root : Nat) (seqs : List (Int × List Int)) :
    List Int → Nat → Int → Option (Nat × Int)
  | [], cur, edgeIdx => some (cur, edgeIdx)
  | c :: rest, cur, edgeIdx =>
    match matchJump arena root seqs c (arena.size + 1) cur edgeIdx with
    | none => none
    | some (cur', edgeIdx') =>
      let nd := getN arena cur'
      let seq := (amFind seqs nd.seqId).getD []
      let edgePos := nd.start + edgeIdx'
      if nd.length = -1 ∧ edgePos ≥ (seq.length : Int) then none
      else if nd.length ≠ -1 ∧ edgeIdx' ≥ nd.length then none
      else if tokAt seq edgePos ≠ c then none
      else matchChars arena root seqs rest cur' (edgeIdx' + 1)

/-- `SuffixTree::_match_pattern(pattern, start_idx)`. -/
def matchPattern (t : Tree) (pattern : List Int) (startIdx : Nat) :
    Option (Nat × Int) :=
  let root := t.root.getD 0
  matchChars t.arena root t.seqs (pattern.drop startIdx) root 0

/-! ## Speculation (`_speculate_path`, `_speculate_tree`, `speculate`) -/

/-- The child-selection fold of `_speculate_path`: iterate the
(key-sorted) children map, keeping the child whose `count` strictly
exceeds the best so far (initially 0). -/
def bestChild (arena : Array Node) (children : List (Int × Nat)) :
    Option Nat × Int :=
  children.foldl
    (fun (acc : Option Nat × Int) kv =>
      let ch := getN arena kv.2
      if ch.count > acc.2 then (some kv.2, ch.count) else acc)
    (none, 0)

/-- The `while` loop of `SuffixTree::_speculate_path`.  The size-bound
comparison `token_ids.size() < (size_t)max_spec_tokens` is modelled as
`length < maxTok.toNat` (the two agree for the non-negative
`max_spec_tokens` the program uses). -/
def specPathGo (arena : Array Node) (seqs : List (Int × List Int))
    (maxTok : Int) (minProb : ℚ) :
    Nat → Nat → Int → ℚ → Candidate → Candidate
  | 0, _, _, _, ret => ret
  | fuel+1, node, idx, prob, ret =>
    if ret.tokenIds.length < maxTok.toNat ∧ prob ≥ minProb then
      let el := effLen arena seqs node
      if idx < el then
        let nd := getN arena node
        let seq := (amFind seqs nd.seqId).getD []
        let token := tokAt seq (nd.start + idx)
        if token = -1 then ret
        else
          let ret' := { ret with
            parents := ret.parents ++ [(ret.tokenIds.length : Int) - 1]
            tokenIds := ret.tokenIds ++ [token]
            probs := ret.probs ++ [prob]
            score := ret.score + prob }
          specPathGo arena seqs maxTok minProb fuel node (idx + 1) prob ret'
      else
        match bestChild arena (getN arena node).children with
        | (none, _) => ret
        | (some child, cnt) =>
          let prob' := prob * ((cnt : ℚ) / (((getN arena node).count : Int) : ℚ))
          specPathGo arena seqs maxTok minProb fuel child 0 prob' ret
    else ret

/-- `SuffixTree::_speculate_path(node, idx, max, min_prob)`. -/
def specPath (fuel : Nat) (t : Tree) (node : Nat) (idx : Int)
    (maxTok : Int) (minProb : ℚ) : Candidate :=
  specPathGo t.arena t.seqs maxTok minProb fuel node idx 1 {}

/-- `struct HeapItem` of `suffix_tree.cc`. -/
structure HeapItem where
  prob : ℚ
  node : Nat
  idx : Int
  parent : Int
  deriving Repr, DecidableEq

/-- The max-priority queue of `_speculate_tree`, modelled as a list kept
sorted by strictly decreasing insertion: a new item goes after existing
items of equal probability.  (The C++ `std::priority_queue` order among
equal keys is unspecified; no claim below depends on it.) -/
def heapPush (h : List HeapItem) (x : HeapItem) : List HeapItem :=
  match h with
  | [] => [x]
  | y :: rest => if x.prob > y.prob then x :: y :: rest else y :: heapPush rest x

/-- The `while` loop of `SuffixTree::_speculate_tree`.  Note: unlike
`_speculate_path`, the source emits the edge token without checking it
against the −1 terminator. -/
def specTreeGo (arena : Array Node) (seqs : List (Int × List Int))
    (maxTok : Int) (minProb : ℚ) :
    Nat → List HeapItem → Candidate → Candidate
  | 0, _, ret => ret
  | fuel+1, heap, ret =>
    match heap with
    | [] => ret
    | item :: rest =>
      if ret.tokenIds.length < maxTok.toNat then
        let el := effLen arena seqs item.node
        if item.idx < el then
          let nd := getN arena item.node
          let seq := (amFind seqs nd.seqId).getD []
          let token := tokAt seq (nd.start + item.idx)
          let ret' := { ret with
            tokenIds := ret.tokenIds ++ [token]
            parents := ret.parents ++ [item.parent]
            probs := ret.probs ++ [item.prob]
            score := ret.score + item.prob }
          let next : HeapItem :=
            { prob := item.prob, node := item.node, idx := item.idx + 1,
              parent := (ret.tokenIds.length : Int) }
          specTreeGo arena seqs maxTok minProb fuel (heapPush rest next) ret'
        else
          let nd := getN arena item.node
          let rest' := nd.children.foldl
            (fun h kv =>
              let ch := getN arena kv.2
              let prob := item.prob * ((ch.count : Int) : ℚ) / ((nd.count : Int) : ℚ)
              if prob ≥ minProb then
                heapPush h { prob := prob, node := kv.2, idx := 0, parent := item.parent }
              else h)
            rest
          specTreeGo arena seqs maxTok minProb fuel rest' ret
      else ret

/-- `SuffixTree::_speculate_tree(node, idx, max, min_prob)`. -/
def specTree (fuel : Nat) (t : Tree) (node : Nat) (idx : Int)
    (maxTok : Int) (minProb : ℚ) : Candidate :=
  specTreeGo t.arena t.seqs maxTok minProb fuel
    [{ prob := 1, node := node, idx := idx, parent := -1 }] {}

/-- The `for (int start_idx = 0; start_idx < (int)pattern.size() - 3; ...)`
loop of `SuffixTree::speculate`, over the remaining start indices. -/
def speculateLoop (fuel : Nat) (t : Tree) (pattern : List Int) (maxTok : Int)
    (minProb : ℚ) (useTree : Bool) : List Nat → Candidate
  | [] => {}
  | s :: rest =>
    match matchPattern t pattern s with
    | none => speculateLoop fuel t pattern maxTok minProb useTree rest
    | some (node, idx) =>
      let cand :=
        if useTree then specTree fuel t node idx maxTok minProb
        else specPath fuel t node idx maxTok minProb
      if cand.score ≠ 0 then cand
      else speculateLoop fuel t pattern maxTok minProb useTree rest

/-- `SuffixTree::speculate(pattern, max_spec_tokens, min_token_prob,
use_tree_spec)`.  The early return fires on the first candidate with
`candidate.score` truthy, i.e. `score ≠ 0`. -/
def Tree.speculate (fuel : Nat) (t : Tree) (pattern : List Int) (maxTok : Int)
    (minProb : ℚ) (useTree : Bool) : Candidate :=
  speculateLoop fuel t pattern maxTok minProb useTree
    (List.range (pattern.length - 3))

/-! ## Update server (`RolloutCacheServiceImpl::UpdateCache`) -/

/-- The composite-token assembly of `UpdateCache`
(`rollout_cache_server.cc`, lines 34–65): prompt block plus terminator
when the prompt is present and non-empty, then for each response the
prompt-suffix bridge, the response and a terminator.  `promptTokens =
none` models `has_prompt() == false`. -/
def buildUpdateTokens (promptTokens : Option (List Int))
    (responses : List (List Int)) : List Int :=
  let (tokens, pfx) :=
    match promptTokens with
    | some p =>
      if p ≠ [] then
        let startIdx := if p.length ≥ 5 then p.length - 5 else 0
        (p ++ [-1], p.drop startIdx)
      else ([], ([] : List Int))
    | none => ([], [])
  responses.foldl (fun acc r => acc ++ pfx ++ r ++ [-1]) tokens

/-- The tree a single `UpdateCache` request builds before publishing:
a fresh `SuffixTree` extended once with the composite sequence
(`tree->extend(0, tokens)`). -/
def updateCacheTree (fuel : Nat) (promptTokens : Option (List Int))
    (responses : List (List Int)) : Option Tree :=
  Tree.extend fuel emptyTree 0 (buildUpdateTokens promptTokens responses)

/-! ## Query API (`SuffixCache`, `suffix_cache.cc`) -/

/-- `SPEC_START_LEN` of `suffix_cache.cc` (the spec's `SPEC_MIN`). -/
def SPEC_START_LEN : Int := 2

/-- `SPEC_MAX_LEN` of `suffix_cache.cc` (the spec's `SPEC_MAX`). -/
def SPEC_MAX_LEN : Int := 16

/-- The process-local state of a `SuffixCache` object:
`req_id_to_responses_` (the cached `SuffixTree* | nullptr` per request)
and `req_id_to_spec_len_`. -/
structure CacheState where
  responses : List (String × Option Tree) := []
  specLen : List (String × Int) := []
  deriving DecidableEq, Inhabited

/-- `SuffixCache::fetch_responses_by_prompts_batch(req_ids, prompts)`.
`hash` abstracts `XXH64(prompt, ..., 0)` and `shared` the arena-resident
`tree_map`. -/
def fetchBatch (hash : List Int → Nat) (shared : List (Nat × Tree))
    (st : CacheState) (reqIds : List String) (prompts : List (List Int)) :
    CacheState :=
  if reqIds.length ≠ prompts.length then st
  else
    -- first pass: new req_ids get spec_len = SPEC_START_LEN
    let toProcess := (reqIds.zip prompts).filter
      (fun rp => amFind st.responses rp.1 = none)
    let specLen' := toProcess.foldl
      (fun m rp => amSet m rp.1 SPEC_START_LEN) st.specLen
    -- second pass (under the arena lock): cache tree_ref | null
    let responses' := toProcess.foldl
      (fun m rp => amSet m rp.1 (amFind shared (hash rp.2))) st.responses
    { responses := responses', specLen := specLen' }

/-- `SuffixCache::update_spec_len(req_id, valid_len)`.  A missing
`req_id` only logs to `stderr` and leaves the state unchanged.
`Int.div` is C++ integer division (truncation toward zero). -/
def updateSpecLen (st : CacheState) (reqId : String) (validLen : Int) :
    CacheState :=
  match amFind st.specLen reqId with
  | none => st
  | some cur =>
    let v :=
      if validLen > cur then min (cur * 2) SPEC_MAX_LEN
      else max SPEC_START_LEN (Int.tdiv cur 2)
    { st with specLen := amSet st.specLen reqId v }

/-- `SuffixCache::evict_responses(req_id)`. -/
def evictResponses (st : CacheState) (reqId : String) : CacheState :=
  { responses := amErase st.responses reqId
    specLen := amErase st.specLen reqId }

/-- One slot of `SuffixCache::speculate`: the body of the parallel
loop for a single `(req_id, pattern)` pair.  The two
`throw std::invalid_argument` sites become `Except.error` (the
messages elide the quoted request id of the source). -/
def slotResult (fuel : Nat) (st : CacheState) (reqId : String)
    (pattern : List Int) (minProb : ℚ) (useTree : Bool) :
    Except String (List Int) :=
  if pattern = [] then .ok []
  else
    match amFind st.responses reqId with
    | none => .error ("Prompt does not exist for request " ++ reqId)
    | some treeOpt =>
      match amFind st.specLen reqId with
      | none => .error ("Spec length not found for request " ++ reqId)
      | some sl =>
        match treeOpt with
        | none => .ok []
        | some tree =>
          .ok (Tree.speculate fuel tree pattern sl minProb useTree).tokenIds

/-- `SuffixCache::speculate(req_ids, patterns, min_token_prob,
use_tree_spec)`.  A thrown `std::invalid_argument` escapes the loop and
aborts the whole call, modelled as the `Except.error` of the first
failing slot; the `assert` on the batch sizes is modelled as an error
as well. -/
def cacheSpeculate (fuel : Nat) (st : CacheState) (reqIds : List String)
    (patterns : List (List Int)) (minProb : ℚ) (useTree : Bool) :
    Except String (List (List Int)) :=
  if reqIds.length ≠ patterns.length then .error "assert"
  else
    (reqIds.zip patterns).mapM
      (fun rp => slotResult fuel st rp.1 rp.2 minProb useTree)

/-! ## Association-list lemmas -/

theorem amFind_amSet {κ α : Type} [DecidableEq κ] (l : List (κ × α)) (k : κ)
    (v : α) : amFind (amSet l k v) k = some v := by
  induction l with
  | nil => simp [amSet, amFind]
  | cons kv rest ih =>
    by_cases h : k = kv.1
    · simp [amSet, amFind, h]
    · simp [amSet, amFind, h, ih]

theorem amFind_amSet_ne {κ α : Type} [DecidableEq κ] (l : List (κ × α))
    (k k' : κ) (v : α) (h : k' ≠ k) :
    amFind (amSet l k v) k' = amFind l k' := by
  induction l with
  | nil => simp [amSet, amFind, h]
  | cons kv rest ih =>
    by_cases hk : k = kv.1
    · subst hk
      simp [amSet, amFind, h]
    · by_cases hk' : k' = kv.1
      · simp [amSet, amFind, hk, hk']
      · simp [amSet, amFind, hk, hk', ih]

theorem amFind_amErase {κ α : Type} [DecidableEq κ] (l : List (κ × α)) (k : κ) :
    amFind (amErase l k) k = none := by
  induction l with
  | nil => simp [amErase, amFind]
  | cons kv rest ih =>
    by_cases h : kv.1 = k
    · simpa [amErase, h] using ih
    · have hne : ¬k = kv.1 := fun hh => h hh.symm
      simp [amErase, h, amFind, hne, ih]

theorem amFind_amErase_ne {κ α : Type} [DecidableEq κ] (l : List (κ × α))
    (k k' : κ) (h : k' ≠ k) : amFind (amErase l k) k' = amFind l k' := by
  induction l with
  | nil => simp [amErase, amFind]
  | cons kv rest ih =>
    by_cases hk : kv.1 = k
    · have : ¬k' = kv.1 := fun hh => h (hh.trans hk)
      simp [amErase, hk, amFind, this, h, ih]
    · by_cases hk' : k' = kv.1
      · simp [amErase, hk, amFind, hk']
      · simp [amErase, hk, amFind, hk', ih]

/-! ## C10: `extend` with an empty token list is a no-op -/

/-- C10: for every tree state and seq id, `extend(seq_id, {})` returns
immediately: the tree state (sequences, arena, bulk allocation flag) is
unchanged and every later `speculate` call gives the same result as
before. -/
theorem C10_extend_empty_noop (fuel : Nat) (t : Tree) (seqId : Int) :
    Tree.extend fuel t seqId [] = some t ∧
    (∀ (f : Nat) (pattern : List Int) (maxTok : Int) (minProb : ℚ)
      (useTree : Bool),
      (Tree.extend fuel t seqId []).map
        (fun t' => Tree.speculate f t' pattern maxTok minProb useTree) =
        some (Tree.speculate f t pattern maxTok minProb useTree)) := by
  refine ⟨by simp [Tree.extend], ?_⟩
  intro f pattern maxTok minProb useTree
  simp [Tree.extend]

/-! ## C6: `update_spec_len` is multiplicative increase / decrease -/

/-- C6: when `req_id` has stored value `c`, `update_spec_len(req_id,
valid_len)` stores `min(c*2, SPEC_MAX)` when `valid_len > c` and
`max(c/2, SPEC_MIN)` otherwise (C++ integer division); from 2, valid
lens 5, 10, 1 give 4, 8, 4, and repeated small valid lens clamp at 2. -/
theorem C6_update_spec_len (st : CacheState) (reqId : String) (validLen c : Int)
    (h : amFind st.specLen reqId = some c) :
    amFind (updateSpecLen st reqId validLen).specLen reqId =
      some (if validLen > c then min (c * 2) SPEC_MAX_LEN
            else max (Int.tdiv c 2) SPEC_START_LEN) ∧
    (let s0 : CacheState := { responses := [], specLen := [("r", 2)] }
     let s1 := updateSpecLen s0 "r" 5
     let s2 := updateSpecLen s1 "r" 10
     let s3 := updateSpecLen s2 "r" 1
     let s4 := updateSpecLen s3 "r" 1
     let s5 := updateSpecLen s4 "r" 1
     amFind s1.specLen "r" = some 4 ∧ amFind s2.specLen "r" = some 8 ∧
     amFind s3.specLen "r" = some 4 ∧ amFind s4.specLen "r" = some 2 ∧
     amFind s5.specLen "r" = some 2) := by
  constructor
  · simp only [updateSpecLen, h]
    rw [amFind_amSet]
    by_cases hv : validLen > c
    · simp [hv]
    · simp [hv, max_comm]
  · exact ⟨by decide, by decide, by decide, by decide, by decide⟩

theorem C6_update_spec_len_witness :
    amFind (updateSpecLen { responses := [], specLen := [("q", 4)] } "q" 9).specLen
        "q" = some (if (9 : Int) > 4 then min (4 * 2) SPEC_MAX_LEN
                    else max (Int.tdiv 4 2) SPEC_START_LEN) :=
  (C6_update_spec_len { responses := [], specLen := [("q", 4)] } "q" 9 4 rfl).1

/-! ## C9: evict-then-fetch restores `spec_len = SPEC_MIN` -/

/-- C9: for every request id and prompt, `evict_responses(r)` followed
by `fetch_responses_by_prompts_batch([r], [p])` leaves `spec_len[r] =
SPEC_MIN = 2`, from any prior state. -/
theorem C9_evict_fetch_resets (hash : List Int → Nat)
    (shared : List (Nat × Tree)) (st : CacheState) (r : String)
    (p : List Int) :
    amFind (fetchBatch hash shared (evictResponses st r) [r] [p]).specLen r =
      some SPEC_START_LEN := by
  have hf : amFind (amErase st.responses r) r = none := amFind_amErase _ _
  simp only [fetchBatch, evictResponses, List.zip, List.zipWith,
    List.length_cons, List.length_nil]
  rw [if_neg (by simp)]
  simp only [List.filter_cons, List.filter_nil, hf]
  simp only [decide_eq_true_eq, if_pos rfl, List.foldl_cons, List.foldl_nil]
  exact amFind_amSet _ _ _

/-! ## C7: `spec_len` stays within `[SPEC_MIN, SPEC_MAX]` -/

/-- The state-mutating operations of the query API (`speculate` is
`const` on the two maps and is therefore not listed). -/
inductive CacheOp where
  | fetch (reqIds : List String) (prompts : List (List Int))
  | update (reqId : String) (validLen : Int)
  | evict (reqId : String)

/-- Apply one query-API operation. -/
def applyOp (hash : List Int → Nat) (shared : List (Nat × Tree))
    (st : CacheState) : CacheOp → CacheState
  | .fetch reqIds prompts => fetchBatch hash shared st reqIds prompts
  | .update reqId validLen => updateSpecLen st reqId validLen
  | .evict reqId => evictResponses st reqId

/-- Run a sequence of query-API operations. -/
def runOps (hash : List Int → Nat) (shared : List (Nat × Tree))
    (st : CacheState) (ops : List CacheOp) : CacheState :=
  ops.foldl (applyOp hash shared) st

/-- Every stored `spec_len` value lies in `[SPEC_START_LEN, SPEC_MAX_LEN]`. -/
def SpecLenInv (st : CacheState) : Prop :=
  ∀ r v, amFind st.specLen r = some v →
    SPEC_START_LEN ≤ v ∧ v ≤ SPEC_MAX_LEN

theorem amFind_foldl_amSet_const {κ α β : Type} [DecidableEq κ]
    (xs : List (κ × β)) (m : List (κ × α)) (v : α) (r : κ) (w : α)
    (h : amFind (xs.foldl (fun m rp => amSet m rp.1 v) m) r = some w) :
    w = v ∨ amFind m r = some w := by
  induction xs generalizing m with
  | nil => exact Or.inr h
  | cons x xs ih =>
    rcases ih (amSet m x.1 v) h with hv | hm
    · exact Or.inl hv
    · by_cases hr : r = x.1
      · subst hr
        rw [amFind_amSet] at hm
        exact Or.inl (Option.some.inj hm).symm
      · rw [amFind_amSet_ne _ _ _ _ hr] at hm
        exact Or.inr hm

theorem specLenInv_fetchBatch (hash : List Int → Nat)
    (shared : List (Nat × Tree)) (st : CacheState) (reqIds : List String)
    (prompts : List (List Int)) (h : SpecLenInv st) :
    SpecLenInv (fetchBatch hash shared st reqIds prompts) := by
  intro r v hv
  unfold fetchBatch at hv
  by_cases hlen : reqIds.length ≠ prompts.length
  · rw [if_pos hlen] at hv
    exact h r v hv
  · rw [if_neg hlen] at hv
    simp only at hv
    rcases amFind_foldl_amSet_const _ _ _ _ _ hv with hv2 | hold
    · subst hv2
      exact ⟨le_refl _, by decide⟩
    · exact h r v hold

theorem specLenInv_updateSpecLen (st : CacheState) (reqId : String)
    (validLen : Int) (h : SpecLenInv st) :
    SpecLenInv (updateSpecLen st reqId validLen) := by
  intro r v hv
  unfold updateSpecLen at hv
  cases hcur : amFind st.specLen reqId with
  | none => rw [hcur] at hv; exact h r v hv
  | some cur =>
    rw [hcur] at hv
    simp only at hv
    obtain ⟨hc1, hc2⟩ := h reqId cur hcur
    by_cases hr : r = reqId
    · subst hr
      rw [amFind_amSet] at hv
      have hv' := (Option.some.inj hv).symm
      subst hv'
      simp only [SPEC_START_LEN, SPEC_MAX_LEN] at hc1 hc2 ⊢
      have htd : Int.tdiv cur 2 = cur / 2 :=
        Int.tdiv_eq_ediv (by omega) (by omega)
      by_cases hgt : validLen > cur
      · rw [if_pos hgt]
        constructor
        · exact le_min (by omega) (by omega)
        · exact min_le_right _ _
      · rw [if_neg hgt]
        constructor
        · exact le_max_left _ _
        · refine max_le (by omega) ?_
          rw [htd]
          omega
    · rw [amFind_amSet_ne _ _ _ _ hr] at hv
      exact h r v hv

theorem specLenInv_evictResponses (st : CacheState) (reqId : String)
    (h : SpecLenInv st) : SpecLenInv (evictResponses st reqId) := by
  intro r v hv
  unfold evictResponses at hv
  simp only at hv
  by_cases hr : r = reqId
  · subst hr
    rw [amFind_amErase] at hv
    exact absurd hv (by simp)
  · rw [amFind_amErase_ne _ _ _ hr] at hv
    exact h r v hv

/-- C7: once the spec-length map satisfies the range invariant
`spec_len ∈ [SPEC_MIN, SPEC_MAX]` (as it does right after
`fetch_responses_by_prompts_batch` initializes an entry to
`SPEC_MIN = 2`), every further sequence of fetch / update / evict
operations preserves it, for every entry still present. -/
theorem C7_spec_len_in_range (hash : List Int → Nat)
    (shared : List (Nat × Tree)) (st : CacheState) (ops : List CacheOp)
    (h : SpecLenInv st) : SpecLenInv (runOps hash shared st ops) := by
  induction ops generalizing st with
  | nil => exact h
  | cons op ops ih =>
    refine ih (applyOp hash shared st op) ?_
    cases op with
    | fetch reqIds prompts => exact specLenInv_fetchBatch _ _ _ _ _ h
    | update reqId validLen => exact specLenInv_updateSpecLen _ _ _ h
    | evict reqId => exact specLenInv_evictResponses _ _ h

theorem C7_spec_len_in_range_witness :
    SpecLenInv (runOps (fun _ => 0) [] {}
      [CacheOp.fetch ["a", "b"] [[1, 2], [3]], CacheOp.update "a" 5,
       CacheOp.update "a" 9, CacheOp.update "b" 0, CacheOp.evict "b"]) :=
  C7_spec_len_in_range (fun _ => 0) [] {} _
    (fun r v hv => absurd hv (by simp [amFind]))

/-! ## C3: the composite-sequence layout of `UpdateCache` -/

/-- The last `min(PREFIX_BRIDGE, |p|)` tokens of the prompt, as the
claim words it. -/
def layoutPfx (p : List Int) : List Int :=
  p.drop (p.length - min 5 p.length)

/-- The layout the claim states: `P ++ [-1] ++ (pfx ++ R_0 ++ [-1]) ++
… ++ (pfx ++ R_{k-1} ++ [-1])`.  Stated from the claim's words, to be
compared with `buildUpdateTokens` (from the source). -/
def specCompositeLayout (p : List Int) (rs : List (List Int)) : List Int :=
  p ++ [-1] ++ (rs.map (fun r => layoutPfx p ++ r ++ [-1])).flatten

theorem foldl_append_blocks (pfx : List Int) (rs : List (List Int))
    (t : List Int) :
    rs.foldl (fun acc r => acc ++ pfx ++ r ++ [-1]) t =
      t ++ (rs.map (fun r => pfx ++ r ++ [-1])).flatten := by
  induction rs generalizing t with
  | nil => simp
  | cons r rs ih =>
    rw [List.foldl_cons, ih]
    simp [List.append_assoc]

/-- C3 counterexample: with an empty (or absent) prompt the code omits
the whole prompt block *including its terminator*, so the sequence fed
to `extend` is not the claimed layout with `P = []` (which would start
with `-1`). -/
theorem C3_counterexample :
    buildUpdateTokens (some []) [[7]] = [7, -1] ∧
    buildUpdateTokens none [[7]] = [7, -1] ∧
    specCompositeLayout [] [[7]] = [-1, 7, -1] ∧
    buildUpdateTokens (some []) [[7]] ≠ specCompositeLayout [] [[7]] := by
  refine ⟨by decide, by decide, by decide, by decide⟩

/-- C3 (amended): for a non-empty prompt `P` the sequence fed to
`extend` is exactly `P ++ [-1] ++ (pfx ++ R_0 ++ [-1]) ++ …` with
`pfx` the last `min(5, |P|)` prompt tokens; when the prompt is absent
or empty, the prompt block *and its terminator* are both omitted and
the sequence is `R_0 ++ [-1] ++ … ++ R_{k-1} ++ [-1]`. -/
theorem C3_composite_layout (p : List Int) (rs : List (List Int))
    (hp : p ≠ []) :
    buildUpdateTokens (some p) rs = specCompositeLayout p rs ∧
    buildUpdateTokens none rs = (rs.map (fun r => r ++ [-1])).flatten ∧
    buildUpdateTokens (some []) rs = (rs.map (fun r => r ++ [-1])).flatten := by
  refine ⟨?_, ?_, ?_⟩
  · have hidx : (if p.length ≥ 5 then p.length - 5 else 0) =
        p.length - min 5 p.length := by
      split <;> omega
    simp only [buildUpdateTokens, if_pos hp]
    rw [foldl_append_blocks, specCompositeLayout, layoutPfx, ← hidx,
      List.append_assoc]
  · simp only [buildUpdateTokens]
    rw [foldl_append_blocks]
    simp
  · simp only [buildUpdateTokens, if_neg (by simp : ¬([] : List Int) ≠ [])]
    rw [foldl_append_blocks]
    simp

theorem C3_composite_layout_witness :
    buildUpdateTokens (some [1, 2]) [[3], [4]] =
        specCompositeLayout [1, 2] [[3], [4]] ∧
    buildUpdateTokens none [[3], [4]] =
        (([[3], [4]] : List (List Int)).map (fun r => r ++ [-1])).flatten ∧
    buildUpdateTokens (some []) [[3], [4]] =
        (([[3], [4]] : List (List Int)).map (fun r => r ++ [-1])).flatten :=
  C3_composite_layout [1, 2] [[3], [4]] (by decide)

/-! ## C1: the tree speculator emits the −1 terminator -/

/-- C1 (code bug): `_speculate_path` skips the terminator
(`if (token == -1) break;`) but `_speculate_tree` pushes the edge token
without any such check.  On the tree built by `UpdateCache` from prompt
`[1,2,3,4]` with no responses (composite sequence `[1,2,3,4,-1]`),
`speculate([1,2,3,4], 4, 0.0, use_tree_spec=true)` returns exactly
`[-1]`, while the same call with `use_tree_spec=false` returns no
tokens. -/
theorem C1_tree_speculator_emits_terminator :
    (updateCacheTree 64 (some [1, 2, 3, 4]) []).map
        (fun t => (Tree.speculate 64 t [1, 2, 3, 4] 4 0 true).tokenIds) =
      some [-1] ∧
    (updateCacheTree 64 (some [1, 2, 3, 4]) []).map
        (fun t => (Tree.speculate 64 t [1, 2, 3, 4] 4 0 false).tokenIds) =
      some [] := by
  constructor
  · with_unfolding_all decide
  · with_unfolding_all decide

/-! ## C4: the path speculator -/

/-- Spec-side description of the child choice at an edge end: the
(first, i.e. lowest-first-token) child with the largest positive
`count`, together with that count.  Written from the spec's words, to
be compared with the `bestChild` fold from the source. -/
def specBestChild (arena : Array Node) : List (Int × Nat) → Option (Nat × Int)
  | [] => none
  | kv :: rest =>
    let c := (getN arena kv.2).count
    match specBestChild arena rest with
    | none => if 0 < c then some (kv.2, c) else none
    | some (b, cb) => if c ≥ cb then some (kv.2, c) else some (b, cb)

theorem specBestChild_pos (arena : Array Node) (l : List (Int × Nat)) :
    ∀ b cb, specBestChild arena l = some (b, cb) → 0 < cb := by
  induction l with
  | nil => intro b cb h; simp [specBestChild] at h
  | cons kv rest ih =>
    intro b cb h
    simp only [specBestChild] at h
    cases hr : specBestChild arena rest with
    | none =>
      simp only [hr] at h
      by_cases hc : 0 < (getN arena kv.2).count
      · rw [if_pos hc] at h
        have hcb : (getN arena kv.2).count = cb :=
          congrArg Prod.snd (Option.some.inj h)
        omega
      · rw [if_neg hc] at h; cases h
    | some bc =>
      obtain ⟨b', cb'⟩ := bc
      simp only [hr] at h
      have hcb' := ih b' cb' hr
      by_cases hge : (getN arena kv.2).count ≥ cb'
      · rw [if_pos hge] at h
        have hcb : (getN arena kv.2).count = cb :=
          congrArg Prod.snd (Option.some.inj h)
        omega
      · rw [if_neg hge] at h
        have hcb : cb' = cb := congrArg Prod.snd (Option.some.inj h)
        omega

theorem specBestChild_none (arena : Array Node) (l : List (Int × Nat))
    (h : specBestChild arena l = none) :
    ∀ kv ∈ l, (getN arena kv.2).count ≤ 0 := by
  induction l with
  | nil => simp
  | cons kv rest ih =>
    simp only [specBestChild] at h
    cases hr : specBestChild arena rest with
    | none =>
      simp only [hr] at h
      by_cases hc : 0 < (getN arena kv.2).count
      · rw [if_pos hc] at h; cases h
      · intro kv' hkv'
        rw [List.mem_cons] at hkv'
        rcases hkv' with rfl | hkv'
        · omega
        · exact ih hr kv' hkv'
    | some bc =>
      obtain ⟨b', cb'⟩ := bc
      simp only [hr] at h
      by_cases hge : (getN arena kv.2).count ≥ cb'
      · rw [if_pos hge] at h; cases h
      · rw [if_neg hge] at h; cases h

theorem bestChild_foldl_spec (arena : Array Node) (l : List (Int × Nat)) :
    ∀ acc : Option Nat × Int, 0 ≤ acc.2 →
      l.foldl
        (fun (acc : Option Nat × Int) kv =>
          let ch := getN arena kv.2
          if ch.count > acc.2 then (some kv.2, ch.count) else acc) acc =
      (match specBestChild arena l with
       | none => acc
       | some (b, cb) => if cb > acc.2 then (some b, cb) else acc) := by
  induction l with
  | nil => intro acc _; rfl
  | cons kv rest ih =>
    intro acc hacc
    rw [List.foldl_cons]
    simp only
    by_cases hstep : (getN arena kv.2).count > acc.2
    · rw [if_pos hstep]
      rw [ih (some kv.2, (getN arena kv.2).count) (by simp; omega)]
      simp only [specBestChild]
      cases hr : specBestChild arena rest with
      | none =>
        have hcpos : 0 < (getN arena kv.2).count := by omega
        simp [hr, hcpos, hstep]
      | some bc =>
        obtain ⟨b', cb'⟩ := bc
        have hcb' := specBestChild_pos arena rest b' cb' hr
        by_cases hge : (getN arena kv.2).count ≥ cb'
        · have h1 : ¬ cb' > (getN arena kv.2).count := by omega
          simp [hr, hge, h1, hstep]
        · have h1 : cb' > (getN arena kv.2).count := by omega
          have h2 : cb' > acc.2 := by omega
          simp [hr, hge, h1, h2]
    · rw [if_neg hstep]
      rw [ih acc hacc]
      simp only [specBestChild]
      cases hr : specBestChild arena rest with
      | none =>
        by_cases hcpos : 0 < (getN arena kv.2).count
        · simp [hr, hcpos, hstep]
        · simp [hr, hcpos]
      | some bc =>
        obtain ⟨b', cb'⟩ := bc
        by_cases hge : (getN arena kv.2).count ≥ cb'
        · have h1 : ¬ cb' > acc.2 := by omega
          have h2 : ¬ (getN arena kv.2).count > acc.2 := hstep
          simp [hr, hge, h1, h2]
        · simp [hr, hge]

theorem bestChild_eq_spec (arena : Array Node) (l : List (Int × Nat)) :
    bestChild arena l =
      (match specBestChild arena l with
       | none => (none, 0)
       | some (b, cb) => (some b, cb)) := by
  unfold bestChild
  rw [bestChild_foldl_spec arena l (none, 0) (by simp)]
  cases hr : specBestChild arena l with
  | none => rfl
  | some bc =>
    obtain ⟨b, cb⟩ := bc
    have := specBestChild_pos arena l b cb hr
    simp [this]

theorem specBestChild_max (arena : Array Node) (l : List (Int × Nat)) :
    ∀ b cb, specBestChild arena l = some (b, cb) →
      (getN arena b).count = cb ∧
        ∀ kv ∈ l, (getN arena kv.2).count ≤ cb := by
  induction l with
  | nil => intro b cb h; simp [specBestChild] at h
  | cons kv rest ih =>
    intro b cb h
    simp only [specBestChild] at h
    cases hr : specBestChild arena rest with
    | none =>
      simp only [hr] at h
      by_cases hc : 0 < (getN arena kv.2).count
      · rw [if_pos hc] at h
        have hb : kv.2 = b := congrArg Prod.fst (Option.some.inj h)
        have hcb : (getN arena kv.2).count = cb :=
          congrArg Prod.snd (Option.some.inj h)
        subst hb
        refine ⟨hcb, ?_⟩
        intro kv' hkv'
        rw [List.mem_cons] at hkv'
        rcases hkv' with rfl | hkv'
        · omega
        · have := specBestChild_none arena rest hr kv' hkv'
          omega
      · rw [if_neg hc] at h; cases h
    | some bc =>
      obtain ⟨b', cb'⟩ := bc
      simp only [hr] at h
      obtain ⟨hcnt, hbound⟩ := ih b' cb' hr
      by_cases hge : (getN arena kv.2).count ≥ cb'
      · rw [if_pos hge] at h
        have hb : kv.2 = b := congrArg Prod.fst (Option.some.inj h)
        have hcb : (getN arena kv.2).count = cb :=
          congrArg Prod.snd (Option.some.inj h)
        subst hb
        refine ⟨hcb, ?_⟩
        intro kv' hkv'
        rw [List.mem_cons] at hkv'
        rcases hkv' with rfl | hkv'
        · omega
        · have := hbound kv' hkv'
          omega
      · rw [if_neg hge] at h
        have hb : b' = b := congrArg Prod.fst (Option.some.inj h)
        have hcb : cb' = cb := congrArg Prod.snd (Option.some.inj h)
        subst hb; subst hcb
        refine ⟨hcnt, ?_⟩
        intro kv' hkv'
        rw [List.mem_cons] at hkv'
        rcases hkv' with rfl | hkv'
        · omega
        · exact hbound kv' hkv'

theorem specBestChild_tie (arena : Array Node) (l : List (Int × Nat)) :
    List.Pairwise (fun x y => x.1 < y.1) l →
    ∀ b cb, specBestChild arena l = some (b, cb) →
      ∃ k, (k, b) ∈ l ∧
        ∀ kv ∈ l, (getN arena kv.2).count = cb → k ≤ kv.1 := by
  induction l with
  | nil => intro _ b cb h; simp [specBestChild] at h
  | cons kv rest ih =>
    intro hsorted b cb h
    obtain ⟨hhead, hrest⟩ := List.pairwise_cons.mp hsorted
    simp only [specBestChild] at h
    cases hr : specBestChild arena rest with
    | none =>
      simp only [hr] at h
      by_cases hc : 0 < (getN arena kv.2).count
      · rw [if_pos hc] at h
        have hb : kv.2 = b := congrArg Prod.fst (Option.some.inj h)
        subst hb
        refine ⟨kv.1, by simp, ?_⟩
        intro kv' hkv' _
        rw [List.mem_cons] at hkv'
        rcases hkv' with rfl | hkv'
        · exact le_refl _
        · exact le_of_lt (hhead kv' hkv')
      · rw [if_neg hc] at h; cases h
    | some bc =>
      obtain ⟨b', cb'⟩ := bc
      simp only [hr] at h
      by_cases hge : (getN arena kv.2).count ≥ cb'
      · rw [if_pos hge] at h
        have hb : kv.2 = b := congrArg Prod.fst (Option.some.inj h)
        subst hb
        refine ⟨kv.1, by simp, ?_⟩
        intro kv' hkv' _
        rw [List.mem_cons] at hkv'
        rcases hkv' with rfl | hkv'
        · exact le_refl _
        · exact le_of_lt (hhead kv' hkv')
      · rw [if_neg hge] at h
        have hb : b' = b := congrArg Prod.fst (Option.some.inj h)
        have hcb : cb' = cb := congrArg Prod.snd (Option.some.inj h)
        subst hb; subst hcb
        obtain ⟨k, hk, hmin⟩ := ih hrest b' cb' hr
        refine ⟨k, List.mem_cons_of_mem _ hk, ?_⟩
        intro kv' hkv' hcnt
        rw [List.mem_cons] at hkv'
        rcases hkv' with rfl | hkv'
        · obtain ⟨hcnt', _⟩ := specBestChild_max arena rest b' cb' hr
          omega
        · exact hmin kv' hkv' hcnt

/-- Spec-side form of the path-speculation loop, following the spec's
sentences: emit tokens along the current edge (stopping at the −1
terminator, the token budget, or the probability floor), and at each
edge end descend into the child chosen by `specBestChild`, multiplying
the running probability by `count(child)/count(parent)`. -/
def specPathRefGo (arena : Array Node) (seqs : List (Int × List Int))
    (maxTok : Int) (minProb : ℚ) :
    Nat → Nat → Int → ℚ → Candidate → Candidate
  | 0, _, _, _, ret => ret
  | fuel+1, node, idx, prob, ret =>
    if ret.tokenIds.length < maxTok.toNat ∧ prob ≥ minProb then
      if idx < effLen arena seqs node then
        let nd := getN arena node
        let seq := (amFind seqs nd.seqId).getD []
        let token := tokAt seq (nd.start + idx)
        if token = -1 then ret
        else
          let ret' := { ret with
            parents := ret.parents ++ [(ret.tokenIds.length : Int) - 1]
            tokenIds := ret.tokenIds ++ [token]
            probs := ret.probs ++ [prob]
            score := ret.score + prob }
          specPathRefGo arena seqs maxTok minProb fuel node (idx + 1) prob ret'
      else
        match specBestChild arena (getN arena node).children with
        | none => ret
        | some (child, _) =>
          let prob' := prob *
            (((getN arena child).count : ℚ) / (((getN arena node).count : Int) : ℚ))
          specPathRefGo arena seqs maxTok minProb fuel child 0 prob' ret
    else ret

theorem specPathGo_eq_ref (arena : Array Node) (seqs : List (Int × List Int))
    (maxTok : Int) (minProb : ℚ) (fuel : Nat) :
    ∀ (node : Nat) (idx : Int) (prob : ℚ) (ret : Candidate),
      specPathGo arena seqs maxTok minProb fuel node idx prob ret =
        specPathRefGo arena seqs maxTok minProb fuel node idx prob ret := by
  induction fuel with
  | zero => intro node idx prob ret; rfl
  | succ fuel ih =>
    intro node idx prob ret
    simp only [specPathGo, specPathRefGo]
    by_cases h1 : ret.tokenIds.length < maxTok.toNat ∧ prob ≥ minProb
    · rw [if_pos h1, if_pos h1]
      by_cases h2 : idx < effLen arena seqs node
      · rw [if_pos h2, if_pos h2]
        by_cases h3 :
          tokAt ((amFind seqs (getN arena node).seqId).getD [])
            ((getN arena node).start + idx) = -1
        · rw [if_pos h3, if_pos h3]
        · rw [if_neg h3, if_neg h3]
          exact ih node (idx + 1) prob _
      · rw [if_neg h2, if_neg h2]
        rw [bestChild_eq_spec]
        cases hr : specBestChild arena (getN arena node).children with
        | none => rfl
        | some bc =>
          obtain ⟨b, cb⟩ := bc
          simp only
          obtain ⟨hcnt, _⟩ := specBestChild_max arena _ b cb hr
          rw [hcnt]
          exact ih b 0 _ ret
    · rw [if_neg h1, if_neg h1]

/-- C4 counterexample: on the tree `UpdateCache` builds from prompt
`[1]` and responses `[[5,6],[5,7],[5,6]]` (composite sequence
`[1,-1,1,5,6,-1,1,5,7,-1,1,5,6,-1]`), the pattern `[6,-1,1,5]` — a
pattern ending in 5 — speculates `7`, not `6`: its 4-token match
`6,-1,1,5` pins down the unique occurrence that continues with `7`, so
the claimed next token 6 does not hold for every pattern ending in 5. -/
theorem C4_counterexample :
    (updateCacheTree 64 (some [1]) [[5, 6], [5, 7], [5, 6]]).map
        (fun t => (Tree.speculate 64 t [6, -1, 1, 5] 4 0 false).tokenIds) =
      some [7] ∧ ([7] : List Int) ≠ [6] := by
  constructor
  · with_unfolding_all decide
  · decide

/-- C4 (amended): the path speculator emits tokens along the current
edge until its end and at each edge end descends into the child with
the largest `count` (on the key-sorted children map, equal maximal
counts resolve to the lower first-token), multiplying the running
probability — started at 1.0 — by `count(child)/count(parent)` at each
descent; this is the refinement `specPathGo = specPathRefGo` plus the
characterization of `bestChild`.  On the tree built from prompt `[1]`
and responses `[[5,6],[5,7],[5,6]]`, *some* patterns ending in 5 (e.g.
`[7,-1,1,5]`) speculate next token 6, but not all (see
`C4_counterexample`). -/
theorem C4_path_speculator :
    (∀ (arena : Array Node) (seqs : List (Int × List Int)) (maxTok : Int)
      (minProb : ℚ) (fuel : Nat) (node : Nat) (idx : Int) (prob : ℚ)
      (ret : Candidate),
      specPathGo arena seqs maxTok minProb fuel node idx prob ret =
        specPathRefGo arena seqs maxTok minProb fuel node idx prob ret) ∧
    (∀ (arena : Array Node) (l : List (Int × Nat)) (b : Nat) (cb : Int),
      List.Pairwise (fun x y => x.1 < y.1) l →
      bestChild arena l = (some b, cb) →
      (getN arena b).count = cb ∧
      (∀ kv ∈ l, (getN arena kv.2).count ≤ cb) ∧
      ∃ k, (k, b) ∈ l ∧
        ∀ kv ∈ l, (getN arena kv.2).count = cb → k ≤ kv.1) ∧
    ((updateCacheTree 64 (some [1]) [[5, 6], [5, 7], [5, 6]]).map
        (fun t => (Tree.speculate 64 t [7, -1, 1, 5] 4 0 false).tokenIds) =
      some [6]) := by
  refine ⟨?_, ?_, ?_⟩
  · intro arena seqs maxTok minProb fuel node idx prob ret
    exact specPathGo_eq_ref arena seqs maxTok minProb fuel node idx prob ret
  · intro arena l b cb hsorted hbc
    rw [bestChild_eq_spec] at hbc
    cases hr : specBestChild arena l with
    | none => simp only [hr] at hbc; cases hbc
    | some bc =>
      obtain ⟨b', cb'⟩ := bc
      simp only [hr] at hbc
      have hb : some b' = some b := congrArg Prod.fst hbc
      have hb2 : b' = b := Option.some.inj hb
      have hcb : cb' = cb := congrArg Prod.snd hbc
      subst hb2; subst hcb
      obtain ⟨hcnt, hmax⟩ := specBestChild_max arena l b' cb' hr
      obtain ⟨k, hk, htie⟩ := specBestChild_tie arena l hsorted b' cb' hr
      exact ⟨hcnt, hmax, k, hk, htie⟩
  · with_unfolding_all decide

theorem C4_path_speculator_witness :
    List.Pairwise (fun x y => x.1 < y.1)
        ([(5, 1), (7, 2)] : List (Int × Nat)) ∧
    (bestChild #[{ count := 3 }, { count := 2 }, { count := 2 }]
        [(5, 1), (7, 2)] = (some 1, 2)) ∧
    ((getN #[{ count := 3 }, { count := 2 }, { count := 2 }] 1).count = 2 ∧
      (∀ kv ∈ ([(5, 1), (7, 2)] : List (Int × Nat)),
        (getN #[{ count := 3 }, { count := 2 }, { count := 2 }] kv.2).count ≤ 2) ∧
      ∃ k, (k, 1) ∈ ([(5, 1), (7, 2)] : List (Int × Nat)) ∧
        ∀ kv ∈ ([(5, 1), (7, 2)] : List (Int × Nat)),
          (getN #[{ count := 3 }, { count := 2 }, { count := 2 }] kv.2).count = 2 →
            k ≤ kv.1) :=
  ⟨by decide, by decide,
    C4_path_speculator.2.1 #[{ count := 3 }, { count := 2 }, { count := 2 }]
      [(5, 1), (7, 2)] 1 2 (by decide) (by decide)⟩

/-! ## C5: `speculate` iterates start indices and returns the first
positive candidate -/

/-- The candidates the `speculate` loop produces, in start-index
order: one per successful `_match_pattern`, from the chosen
sub-speculator. -/
def speculateCandidates (fuel : Nat) (t : Tree) (pattern : List Int)
    (maxTok : Int) (minProb : ℚ) (useTree : Bool) : List Candidate :=
  (List.range (pattern.length - 3)).filterMap (fun s =>
    (matchPattern t pattern s).map (fun ni =>
      if useTree then specTree fuel t ni.1 ni.2 maxTok minProb
      else specPath fuel t ni.1 ni.2 maxTok minProb))

theorem speculateLoop_eq_find (fuel : Nat) (t : Tree) (pattern : List Int)
    (maxTok : Int) (minProb : ℚ) (useTree : Bool) :
    ∀ idxs : List Nat,
      speculateLoop fuel t pattern maxTok minProb useTree idxs =
        ((idxs.filterMap (fun s =>
            (matchPattern t pattern s).map (fun ni =>
              if useTree then specTree fuel t ni.1 ni.2 maxTok minProb
              else specPath fuel t ni.1 ni.2 maxTok minProb))).find?
          (fun c => decide (c.score ≠ 0))).getD {} := by
  intro idxs
  induction idxs with
  | nil => rfl
  | cons s rest ih =>
    rw [speculateLoop, List.filterMap_cons]
    cases hm : matchPattern t pattern s with
    | none => simp only [hm]; exact ih
    | some ni =>
      obtain ⟨node, idx⟩ := ni
      simp only [hm, Option.map_some']
      by_cases hs :
        (if useTree then specTree fuel t node idx maxTok minProb
         else specPath fuel t node idx maxTok minProb).score ≠ 0
      · rw [if_pos hs, List.find?_cons_of_pos _ (by simpa using hs)]
        rfl
      · rw [if_neg hs, List.find?_cons_of_neg _ (by simpa using hs)]
        exact ih

/-- Every node count in the arena is non-negative: true of every
arena the program ever builds (`Node()` initializes `count = 0`,
leaves get `count = 1`, `_update_node_counts` sums those). -/
def CountsNonneg (arena : Array Node) : Prop :=
  ∀ i, 0 ≤ (getN arena i).count

theorem bestChild_count_nonneg (arena : Array Node) (l : List (Int × Nat))
    (b : Nat) (cb : Int)
    (h : bestChild arena l = (some b, cb)) : 0 ≤ cb := by
  rw [bestChild_eq_spec] at h
  cases hr : specBestChild arena l with
  | none => simp only [hr] at h; cases h
  | some bc =>
    obtain ⟨b', cb'⟩ := bc
    simp only [hr] at h
    have hcb : cb' = cb := congrArg Prod.snd h
    have := specBestChild_pos arena l b' cb' hr
    omega

theorem specPathGo_score_nonneg (arena : Array Node)
    (seqs : List (Int × List Int)) (maxTok : Int) (minProb : ℚ)
    (hc : CountsNonneg arena) :
    ∀ (fuel : Nat) (node : Nat) (idx : Int) (prob : ℚ) (ret : Candidate),
      0 ≤ prob → 0 ≤ ret.score →
      0 ≤ (specPathGo arena seqs maxTok minProb fuel node idx prob ret).score := by
  intro fuel
  induction fuel with
  | zero => intro node idx prob ret _ hret; exact hret
  | succ fuel ih =>
    intro node idx prob ret hprob hret
    rw [specPathGo]
    by_cases h1 : ret.tokenIds.length < maxTok.toNat ∧ prob ≥ minProb
    · rw [if_pos h1]
      by_cases h2 : idx < effLen arena seqs node
      · rw [if_pos h2]
        by_cases h3 :
          tokAt ((amFind seqs (getN arena node).seqId).getD [])
            ((getN arena node).start + idx) = -1
        · rw [if_pos h3]; exact hret
        · rw [if_neg h3]
          exact ih node (idx + 1) prob _ hprob (by simp; positivity)
      · rw [if_neg h2]
        cases hb : bestChild arena (getN arena node).children with
        | mk cOpt cnt =>
          cases cOpt with
          | none => exact hret
          | some child =>
            simp only
            refine ih child 0 _ ret ?_ hret
            have hcnt := bestChild_count_nonneg arena _ child cnt hb
            have hden : (0 : ℚ) ≤ (((getN arena node).count : Int) : ℚ) := by
              have := hc node
              exact_mod_cast this
            have hnum : (0 : ℚ) ≤ ((cnt : Int) : ℚ) := by exact_mod_cast hcnt
            exact mul_nonneg hprob (div_nonneg hnum hden)
    · rw [if_neg h1]; exact hret

theorem heapPush_mem (h : List HeapItem) (x y : HeapItem)
    (hm : y ∈ heapPush h x) : y ∈ h ∨ y = x := by
  induction h with
  | nil => simp [heapPush] at hm; exact Or.inr hm
  | cons z rest ih =>
    rw [heapPush] at hm
    by_cases hp : x.prob > z.prob
    · rw [if_pos hp] at hm
      rw [List.mem_cons] at hm
      rcases hm with rfl | hm
      · exact Or.inr rfl
      · exact Or.inl hm
    · rw [if_neg hp] at hm
      rw [List.mem_cons] at hm
      rcases hm with rfl | hm
      · exact Or.inl (List.mem_cons_self _ _)
      · rcases ih hm with h' | h'
        · exact Or.inl (List.mem_cons_of_mem _ h')
        · exact Or.inr h'

theorem specTreeGo_push_fold_nonneg (arena : Array Node)
    (minProb : ℚ) (item : HeapItem) (hitem : 0 ≤ item.prob)
    (hc : CountsNonneg arena) (nd : Node) (hnd : 0 ≤ nd.count) :
    ∀ (cs : List (Int × Nat)) (h : List HeapItem),
      (∀ it ∈ h, 0 ≤ it.prob) →
      ∀ it ∈ cs.foldl
        (fun h kv =>
          let ch := getN arena kv.2
          let prob := item.prob * ((ch.count : Int) : ℚ) / ((nd.count : Int) : ℚ)
          if prob ≥ minProb then
            heapPush h { prob := prob, node := kv.2, idx := 0, parent := item.parent }
          else h) h,
      0 ≤ it.prob := by
  intro cs
  induction cs with
  | nil => intro h hh it hit; exact hh it hit
  | cons kv rest ih =>
    intro h hh it hit
    rw [List.foldl_cons] at hit
    refine ih _ ?_ it hit
    intro it' hit'
    simp only at hit'
    by_cases hp :
      item.prob * (((getN arena kv.2).count : Int) : ℚ) / ((nd.count : Int) : ℚ) ≥
        minProb
    · rw [if_pos hp] at hit'
      rcases heapPush_mem _ _ _ hit' with h' | h'
      · exact hh it' h'
      · subst h'
        simp only
        have hnum : (0 : ℚ) ≤ (((getN arena kv.2).count : Int) : ℚ) := by
          exact_mod_cast hc kv.2
        have hden : (0 : ℚ) ≤ ((nd.count : Int) : ℚ) := by exact_mod_cast hnd
        exact div_nonneg (mul_nonneg hitem hnum) hden
    · rw [if_neg hp] at hit'
      exact hh it' hit'

theorem specTreeGo_score_nonneg (arena : Array Node)
    (seqs : List (Int × List Int)) (maxTok : Int) (minProb : ℚ)
    (hc : CountsNonneg arena) :
    ∀ (fuel : Nat) (heap : List HeapItem) (ret : Candidate),
      (∀ it ∈ heap, 0 ≤ it.prob) → 0 ≤ ret.score →
      0 ≤ (specTreeGo arena seqs maxTok minProb fuel heap ret).score := by
  intro fuel
  induction fuel with
  | zero => intro heap ret _ hret; exact hret
  | succ fuel ih =>
    intro heap ret hheap hret
    cases heap with
    | nil => exact hret
    | cons item rest =>
      rw [specTreeGo]
      by_cases h1 : ret.tokenIds.length < maxTok.toNat
      · rw [if_pos h1]
        have hitem : 0 ≤ item.prob := hheap item (List.mem_cons_self _ _)
        have hrest : ∀ it ∈ rest, 0 ≤ it.prob :=
          fun it hit => hheap it (List.mem_cons_of_mem _ hit)
        by_cases h2 : item.idx < effLen arena seqs item.node
        · rw [if_pos h2]
          refine ih _ _ ?_ (by simp; positivity)
          intro it hit
          rcases heapPush_mem _ _ _ hit with h' | h'
          · exact hrest it h'
          · subst h'; exact hitem
        · rw [if_neg h2]
          refine ih _ _ ?_ hret
          exact specTreeGo_push_fold_nonneg arena minProb item hitem hc _
            (hc item.node) _ _ hrest
      · rw [if_neg h1]; exact hret

theorem speculateCandidates_score_nonneg (fuel : Nat) (t : Tree)
    (pattern : List Int) (maxTok : Int) (minProb : ℚ) (useTree : Bool)
    (hc : CountsNonneg t.arena) :
    ∀ c ∈ speculateCandidates fuel t pattern maxTok minProb useTree,
      0 ≤ c.score := by
  intro c hcm
  rw [speculateCandidates, List.mem_filterMap] at hcm
  obtain ⟨s, _, hs⟩ := hcm
  cases hm : matchPattern t pattern s with
  | none => rw [hm] at hs; cases hs
  | some ni =>
    rw [hm] at hs
    simp only [Option.map_some'] at hs
    have hs' := Option.some.inj hs
    subst hs'
    by_cases hu : useTree
    · rw [if_pos hu]
      exact specTreeGo_score_nonneg t.arena t.seqs maxTok minProb hc fuel _ {}
        (by intro it hit
            rw [List.mem_singleton] at hit
            subst hit
            norm_num) (le_refl 0)
    · rw [if_neg hu]
      exact specPathGo_score_nonneg t.arena t.seqs maxTok minProb hc fuel _ _ 1 {}
        (by norm_num) (le_refl 0)

theorem find?_ne_eq_find?_pos (l : List Candidate)
    (h : ∀ c ∈ l, 0 ≤ c.score) :
    l.find? (fun c => decide (c.score ≠ 0)) =
      l.find? (fun c => decide (0 < c.score)) := by
  induction l with
  | nil => rfl
  | cons c rest ih =>
    have hc := h c (List.mem_cons_self _ _)
    have heq : decide (c.score ≠ 0) = decide (0 < c.score) := by
      apply decide_eq_decide.mpr
      constructor
      · intro hne; exact lt_of_le_of_ne hc (Ne.symm hne)
      · intro hlt; exact ne_of_gt hlt
    rw [List.find?, List.find?, heq]
    cases hd : decide (0 < c.score) with
    | true => rfl
    | false => exact ih (fun c' hc' => h c' (List.mem_cons_of_mem _ hc'))

/-- C5: `speculate` tries `start_idx = 0, 1, …, len(pattern)-4` in
order, running the match and the chosen sub-speculator for each, and
returns the first candidate with positive score (the code's
`candidate.score` truthiness test agrees with `score > 0` because all
scores are sums of non-negative probabilities); consequently every
pattern with fewer than 4 tokens yields the empty candidate with score
0 and no tokens. -/
theorem C5_speculate_first_positive (fuel : Nat) (t : Tree)
    (pattern : List Int) (maxTok : Int) (minProb : ℚ) (useTree : Bool)
    (hc : CountsNonneg t.arena) :
    Tree.speculate fuel t pattern maxTok minProb useTree =
      ((speculateCandidates fuel t pattern maxTok minProb useTree).find?
        (fun c => decide (0 < c.score))).getD {} ∧
    (pattern.length < 4 →
      Tree.speculate fuel t pattern maxTok minProb useTree = {} ∧
      (Tree.speculate fuel t pattern maxTok minProb useTree).tokenIds = [] ∧
      (Tree.speculate fuel t pattern maxTok minProb useTree).score = 0) := by
  have hchar := speculateLoop_eq_find fuel t pattern maxTok minProb useTree
    (List.range (pattern.length - 3))
  have hmain : Tree.speculate fuel t pattern maxTok minProb useTree =
      ((speculateCandidates fuel t pattern maxTok minProb useTree).find?
        (fun c => decide (0 < c.score))).getD {} := by
    rw [Tree.speculate, hchar, ← speculateCandidates,
      find?_ne_eq_find?_pos _
        (speculateCandidates_score_nonneg fuel t pattern maxTok minProb useTree hc)]
  refine ⟨hmain, ?_⟩
  intro hshort
  have hrange : pattern.length - 3 = 0 := by omega
  have hempty : Tree.speculate fuel t pattern maxTok minProb useTree = {} := by
    rw [Tree.speculate, hrange]
    rfl
  exact ⟨hempty, by rw [hempty], by rw [hempty]⟩

theorem C5_speculate_first_positive_witness :
    Tree.speculate 16 emptyTree [9, 9, 9, 9] 4 0 false =
      ((speculateCandidates 16 emptyTree [9, 9, 9, 9] 4 0 false).find?
        (fun c => decide (0 < c.score))).getD {} ∧
    (([9, 9, 9, 9] : List Int).length < 4 →
      Tree.speculate 16 emptyTree [9, 9, 9, 9] 4 0 false = {} ∧
      (Tree.speculate 16 emptyTree [9, 9, 9, 9] 4 0 false).tokenIds = [] ∧
      (Tree.speculate 16 emptyTree [9, 9, 9, 9] 4 0 false).score = 0) :=
  C5_speculate_first_positive 16 emptyTree [9, 9, 9, 9] 4 0 false
    (fun i => by simp [getN, emptyTree, Array.getD])

/-! ## C2: per-slot failures in the batched `speculate` -/

/-- The output of one slot when that slot does not throw: empty for an
empty pattern or a null tree, otherwise the tree's speculation. -/
def slotOk (fuel : Nat) (st : CacheState) (reqId : String)
    (pattern : List Int) (minProb : ℚ) (useTree : Bool) : List Int :=
  if pattern = [] then []
  else
    match amFind st.responses reqId, amFind st.specLen reqId with
    | some (some tree), some sl =>
      (Tree.speculate fuel tree pattern sl minProb useTree).tokenIds
    | _, _ => []

theorem slotResult_ok (fuel : Nat) (st : CacheState) (reqId : String)
    (pattern : List Int) (minProb : ℚ) (useTree : Bool)
    (h : pattern ≠ [] →
      (amFind st.responses reqId).isSome ∧ (amFind st.specLen reqId).isSome) :
    slotResult fuel st reqId pattern minProb useTree =
      .ok (slotOk fuel st reqId pattern minProb useTree) := by
  by_cases hp : pattern = []
  · simp [slotResult, slotOk, hp]
  · obtain ⟨h1, h2⟩ := h hp
    rw [slotResult, slotOk, if_neg hp, if_neg hp]
    cases hr : amFind st.responses reqId with
    | none => simp [hr] at h1
    | some treeOpt =>
      cases hl : amFind st.specLen reqId with
      | none => simp [hl] at h2
      | some sl =>
        cases treeOpt with
        | none => simp
        | some tree => simp

theorem mapM_ok_of_all_ok {α β : Type} (f : α → Except String β) (g : α → β)
    (l : List α) (h : ∀ x ∈ l, f x = .ok (g x)) :
    l.mapM f = .ok (l.map g) := by
  induction l with
  | nil => rfl
  | cons x xs ih =>
    rw [List.mapM_cons, h x (List.mem_cons_self _ _),
      ih (fun y hy => h y (List.mem_cons_of_mem _ hy))]
    rfl

/-- C2 counterexample: with request "a" present (null tree) and "b"
absent from the maps, the batched call `speculate(["a","b"], …)` with
non-empty patterns raises `std::invalid_argument` for slot "b", so the
whole call aborts with an error instead of returning a 2-element list —
the failure is not confined to slot "b". -/
theorem C2_counterexample :
    cacheSpeculate 16 { responses := [("a", none)], specLen := [("a", 2)] }
        ["a", "b"] [[1, 2, 3, 4], [1, 2, 3, 4]] 0 false =
      .error ("Prompt does not exist for request " ++ "b") := by
  rfl

/-- C2 (amended): a per-slot failure (req_id missing from the
responses map or the spec-length map) with a non-empty pattern throws
`std::invalid_argument`, aborting the whole batched call, so no list is
returned at all; when every slot with a non-empty pattern has both
entries, the call returns a list of the same length as `req_ids` whose
i-th element depends only on slot i's req_id and pattern (empty for
empty patterns and null trees) — each slot then receives exactly the
output it would have received alone. -/
theorem C2_batch_isolation (fuel : Nat) (st : CacheState)
    (reqIds : List String) (patterns : List (List Int)) (minProb : ℚ)
    (useTree : Bool) (hlen : reqIds.length = patterns.length)
    (hok : ∀ rp ∈ reqIds.zip patterns, rp.2 ≠ [] →
      (amFind st.responses rp.1).isSome ∧ (amFind st.specLen rp.1).isSome) :
    cacheSpeculate fuel st reqIds patterns minProb useTree =
      .ok ((reqIds.zip patterns).map
        (fun rp => slotOk fuel st rp.1 rp.2 minProb useTree)) ∧
    ((reqIds.zip patterns).map
        (fun rp => slotOk fuel st rp.1 rp.2 minProb useTree)).length =
      reqIds.length ∧
    ∀ rp ∈ reqIds.zip patterns,
      cacheSpeculate fuel st [rp.1] [rp.2] minProb useTree =
        .ok [slotOk fuel st rp.1 rp.2 minProb useTree] := by
  refine ⟨?_, ?_, ?_⟩
  · rw [cacheSpeculate, if_neg (by omega)]
    exact mapM_ok_of_all_ok _ _ _
      (fun rp hrp => slotResult_ok fuel st rp.1 rp.2 minProb useTree (hok rp hrp))
  · rw [List.length_map, List.length_zip]
    omega
  · intro rp hrp
    rw [cacheSpeculate, if_neg (by simp)]
    show List.mapM _ ([rp.1].zip [rp.2]) = _
    rw [List.zip_cons_cons, List.zip_nil_right]
    rw [List.mapM_cons,
      slotResult_ok fuel st rp.1 rp.2 minProb useTree (hok rp hrp)]
    rfl

theorem C2_batch_isolation_witness :
    cacheSpeculate 16
        { responses := [("a", none), ("b", none)],
          specLen := [("a", 2), ("b", 2)] }
        ["a", "b"] [[1, 2, 3, 4], []] 0 false =
      .ok (((["a", "b"] : List String).zip
          ([[1, 2, 3, 4], []] : List (List Int))).map
        (fun rp =>
          slotOk 16
            { responses := [("a", none), ("b", none)],
              specLen := [("a", 2), ("b", 2)] } rp.1 rp.2 0 false)) :=
  (C2_batch_isolation 16
    { responses := [("a", none), ("b", none)],
      specLen := [("a", 2), ("b", 2)] }
    ["a", "b"] [[1, 2, 3, 4], []] 0 false rfl
    (by intro rp hrp _
        fin_cases hrp <;> exact ⟨rfl, rfl⟩)).1

/-! ## C8: the post-order count invariant -/

theorem size_setN (a : Array Node) (i : Nat) (nd : Node) :
    (setN a i nd).size = a.size := by
  unfold setN Array.setD
  split <;> simp

theorem getN_setN (a : Array Node) (i : Nat) (nd : Node) (j : Nat) :
    getN (setN a i nd) j = if j = i ∧ i < a.size then nd else getN a j := by
  unfold getN setN Array.setD Array.getD
  by_cases hi : i < a.size
  · rw [dif_pos hi]
    by_cases hj : j < a.size
    · have hj' : j < (a.set ⟨i, hi⟩ nd).size := by
        rw [Array.size_set]; exact hj
      rw [dif_pos hj', dif_pos hj]
      have hgs := Array.get_set a ⟨i, hi⟩ j hj nd
      simp only [Array.get_eq_getElem]
      rw [hgs]
      by_cases hij : j = i
      · simp [hij, hi]
      · simp only [hij, false_and, if_false]
        rw [if_neg (fun (h : (⟨i, hi⟩ : Fin a.size).val = j) => hij h.symm)]
    · have hj' : ¬ j < (a.set ⟨i, hi⟩ nd).size := by
        rw [Array.size_set]; exact hj
      rw [dif_neg hj', dif_neg hj]
      have hne : ¬ (j = i ∧ i < a.size) := by
        rintro ⟨rfl, _⟩; exact hj hi
      rw [if_neg hne]
  · rw [dif_neg hi]
    have hne : ¬ (j = i ∧ i < a.size) := by
      rintro ⟨_, h⟩; exact hi h
    rw [if_neg hne]

theorem getN_setN_ne (a : Array Node) (i : Nat) (nd : Node) (j : Nat)
    (h : j ≠ i) : getN (setN a i nd) j = getN a j := by
  rw [getN_setN]
  simp [h]

theorem getN_setN_self (a : Array Node) (i : Nat) (nd : Node)
    (h : i < a.size) : getN (setN a i nd) i = nd := by
  rw [getN_setN]
  simp [h]

/-- The set of node ids a post-order traversal from `id` visits, with
the same fuel discipline as `updateCounts`: the analysis device used to
state which part of the arena `_update_node_counts` touches. -/
def reach : Nat → Array Node → Nat → Option (List Nat)
  | 0, _, _ => none
  | fuel+1, a, id =>
    ((getN a id).children.mapM (fun kv => reach fuel a kv.2)).map
      (fun ls => id :: ls.flatten)

/-- The count invariant the claim states, over a list of node ids:
leaves have `count = 1`, internal nodes have `count` equal to the sum
of their children's counts. -/
def countsOk (a : Array Node) (r : List Nat) : Prop :=
  ∀ id ∈ r,
    ((getN a id).children = [] → (getN a id).count = 1) ∧
    ((getN a id).children ≠ [] →
      (getN a id).count =
        ((getN a id).children.map (fun kv => (getN a kv.2).count)).sum)

instance countsOk_decidable (a : Array Node) (r : List Nat) :
    Decidable (countsOk a r) := by
  unfold countsOk
  infer_instance

theorem uc_foldl_none (fuel : Nat) (l : List (Int × Nat)) :
    l.foldl
      (fun (acc : Option (Array Node × Int)) kv =>
        match acc with
        | none => none
        | some (a1, tot) =>
          match updateCounts fuel a1 kv.2 with
          | none => none
          | some (a2, cnt) => some (a2, tot + cnt)) none = none := by
  induction l with
  | nil => rfl
  | cons kv rest ih => rw [List.foldl_cons]; exact ih

theorem uc_foldl_eq (fuel : Nat) :
    ∀ (l : List (Int × Nat)) (a : Array Node) (t0 : Int),
      l.foldl
        (fun (acc : Option (Array Node × Int)) kv =>
          match acc with
          | none => none
          | some (a1, tot) =>
            match updateCounts fuel a1 kv.2 with
            | none => none
            | some (a2, cnt) => some (a2, tot + cnt)) (some (a, t0)) =
      (match updateCountsList fuel a l with
       | none => none
       | some (a2, s) => some (a2, t0 + s)) := by
  intro l
  induction l with
  | nil => intro a t0; simp [updateCountsList]
  | cons kv rest ih =>
    intro a t0
    rw [List.foldl_cons]
    simp only [updateCountsList]
    cases hu : updateCounts fuel a kv.2 with
    | none =>
      simp only [hu]
      exact uc_foldl_none fuel rest
    | some p =>
      obtain ⟨a1, cnt⟩ := p
      simp only [hu]
      rw [ih a1 (t0 + cnt)]
      cases hl : updateCountsList fuel a1 rest with
      | none => simp only [hl]
      | some q =>
        obtain ⟨a2, s⟩ := q
        simp only [hl]
        simp [Int.add_assoc]

theorem updateCounts_succ (fuel : Nat) (a : Array Node) (id : Nat) :
    updateCounts (fuel+1) a id =
      (if (getN a id).children = [] then
        some (setN a id { getN a id with count := 1 }, 1)
      else
        match updateCountsList fuel a (getN a id).children with
        | none => none
        | some (a1, tot) =>
          some (setN a1 id { getN a1 id with count := tot }, tot)) := by
  rw [updateCounts]
  by_cases hleaf : (getN a id).children = []
  · rw [if_pos hleaf, if_pos hleaf]
  · rw [if_neg hleaf, if_neg hleaf]
    rw [uc_foldl_eq fuel _ a 0]
    cases hl : updateCountsList fuel a (getN a id).children with
    | none => rfl
    | some p =>
      obtain ⟨a1, tot⟩ := p
      simp

theorem mapM_option_cons_inv {α β : Type} (f : α → Option β) (x : α)
    (xs : List α) (ls : List β) (h : (x :: xs).mapM f = some ls) :
    ∃ y ys, f x = some y ∧ xs.mapM f = some ys ∧ ls = y :: ys := by
  rw [List.mapM_cons] at h
  cases hf : f x with
  | none => rw [hf] at h; simp at h
  | some y =>
    rw [hf] at h
    cases hm : xs.mapM f with
    | none => rw [hm] at h; simp at h
    | some ys =>
      rw [hm] at h
      simp at h
      exact ⟨y, ys, rfl, rfl, h.symm⟩

theorem mapM_option_mem {α β : Type} (f : α → Option β) :
    ∀ (l : List α) (ls : List β), l.mapM f = some ls →
      (∀ x ∈ l, ∃ y ∈ ls, f x = some y) ∧
      (∀ y ∈ ls, ∃ x ∈ l, f x = some y) := by
  intro l
  induction l with
  | nil =>
    intro ls h
    simp only [List.mapM_nil] at h
    have : ls = [] := by simpa using h.symm
    subst this
    simp
  | cons x xs ih =>
    intro ls h
    obtain ⟨y, ys, hy, hys, rfl⟩ := mapM_option_cons_inv f x xs ls h
    obtain ⟨ihf, ihb⟩ := ih ys hys
    constructor
    · intro x' hx'
      rw [List.mem_cons] at hx'
      rcases hx' with rfl | hx'
      · exact ⟨y, List.mem_cons_self _ _, hy⟩
      · obtain ⟨y', hy', hfy'⟩ := ihf x' hx'
        exact ⟨y', List.mem_cons_of_mem _ hy', hfy'⟩
    · intro y' hy'
      rw [List.mem_cons] at hy'
      rcases hy' with rfl | hy'
      · exact ⟨x, List.mem_cons_self _ _, hy⟩
      · obtain ⟨x', hx', hfx'⟩ := ihb y' hy'
        exact ⟨x', List.mem_cons_of_mem _ hx', hfx'⟩

theorem mapM_option_congr {α β : Type} (f g : α → Option β) :
    ∀ l : List α, (∀ x ∈ l, f x = g x) → l.mapM f = l.mapM g := by
  intro l
  induction l with
  | nil => intro _; rfl
  | cons x xs ih =>
    intro h
    rw [List.mapM_cons, List.mapM_cons, h x (List.mem_cons_self _ _),
      ih (fun y hy => h y (List.mem_cons_of_mem _ hy))]

theorem reach_mem_self : ∀ (fuel : Nat) (a : Array Node) (id : Nat)
    (r : List Nat), reach fuel a id = some r → id ∈ r := by
  intro fuel a id r h
  cases fuel with
  | zero => cases h
  | succ fuel =>
    rw [reach] at h
    cases hm : (getN a id).children.mapM (fun kv => reach fuel a kv.2) with
    | none => rw [hm] at h; cases h
    | some ls =>
      rw [hm] at h
      simp only [Option.map_some'] at h
      rw [← Option.some.inj h]
      exact List.mem_cons_self _ _

theorem reach_closed : ∀ (fuel : Nat) (a : Array Node) (id : Nat)
    (r : List Nat), reach fuel a id = some r →
    ∀ j ∈ r, ∀ kv ∈ (getN a j).children, kv.2 ∈ r := by
  intro fuel
  induction fuel with
  | zero => intro a id r h; cases h
  | succ fuel ih =>
    intro a id r h j hj kv hkv
    rw [reach] at h
    cases hm : (getN a id).children.mapM (fun kv => reach fuel a kv.2) with
    | none => rw [hm] at h; cases h
    | some ls =>
      rw [hm] at h
      simp only [Option.map_some'] at h
      have hr := Option.some.inj h
      subst hr
      rcases List.mem_cons.mp hj with rfl | hjf
      · obtain ⟨rc, hrc, hre⟩ := (mapM_option_mem _ _ _ hm).1 kv hkv
        exact List.mem_cons_of_mem _
          (List.mem_flatten.mpr ⟨rc, hrc, reach_mem_self fuel a kv.2 rc hre⟩)
      · obtain ⟨rc, hrcls, hjrc⟩ := List.mem_flatten.mp hjf
        obtain ⟨kvc, _, hre⟩ := (mapM_option_mem _ _ _ hm).2 rc hrcls
        exact List.mem_cons_of_mem _
          (List.mem_flatten.mpr ⟨rc, hrcls, ih a kvc.2 rc hre j hjrc kv hkv⟩)

theorem flatten_reach_closed (fuel : Nat) (a : Array Node)
    (l : List (Int × Nat)) (ls : List (List Nat))
    (h : l.mapM (fun kv => reach fuel a kv.2) = some ls) :
    ∀ j ∈ ls.flatten, ∀ kv ∈ (getN a j).children, kv.2 ∈ ls.flatten := by
  intro j hj kv hkv
  obtain ⟨rc, hrc, hjrc⟩ := List.mem_flatten.mp hj
  obtain ⟨kvc, _, hre⟩ := (mapM_option_mem _ _ _ h).2 rc hrc
  exact List.mem_flatten.mpr ⟨rc, hrc, reach_closed fuel a kvc.2 rc hre j hjrc kv hkv⟩

theorem reach_congr (a a' : Array Node)
    (hk : ∀ j, (getN a' j).children = (getN a j).children) :
    ∀ (fuel : Nat) (id : Nat), reach fuel a' id = reach fuel a id := by
  intro fuel
  induction fuel with
  | zero => intro _; rfl
  | succ fuel ih =>
    intro id
    rw [reach, reach, hk id]
    rw [mapM_option_congr _ _ _ (fun kv _ => ih kv.2)]

theorem ucKids : ∀ (fuel : Nat) (a : Array Node) (id : Nat)
    (a' : Array Node) (tot : Int),
    updateCounts fuel a id = some (a', tot) →
    (∀ j, (getN a' j).children = (getN a j).children) ∧ a'.size = a.size := by
  intro fuel
  induction fuel with
  | zero => intro a id a' tot h; cases h
  | succ fuel ih =>
    have ihl : ∀ (l : List (Int × Nat)) (a a' : Array Node) (s : Int),
        updateCountsList fuel a l = some (a', s) →
        (∀ j, (getN a' j).children = (getN a j).children) ∧ a'.size = a.size := by
      intro l
      induction l with
      | nil =>
        intro a a' s h
        simp only [updateCountsList] at h
        have ha : a = a' := congrArg Prod.fst (Option.some.inj h)
        subst ha
        exact ⟨fun _ => rfl, rfl⟩
      | cons kv rest ihrest =>
        intro a a' s h
        simp only [updateCountsList] at h
        cases hu : updateCounts fuel a kv.2 with
        | none => rw [hu] at h; cases h
        | some p =>
          obtain ⟨a1, cnt⟩ := p
          rw [hu] at h
          simp only at h
          cases hl : updateCountsList fuel a1 rest with
          | none => rw [hl] at h; cases h
          | some q =>
            obtain ⟨a2, s2⟩ := q
            rw [hl] at h
            simp only at h
            have ha : a2 = a' := congrArg Prod.fst (Option.some.inj h)
            subst ha
            obtain ⟨hk1, hs1⟩ := ih a kv.2 a1 cnt hu
            obtain ⟨hk2, hs2⟩ := ihrest a1 a2 s2 hl
            exact ⟨fun j => (hk2 j).trans (hk1 j), hs2.trans hs1⟩
    intro a id a' tot h
    rw [updateCounts_succ] at h
    by_cases hleaf : (getN a id).children = []
    · rw [if_pos hleaf] at h
      have ha : setN a id { getN a id with count := 1 } = a' :=
        congrArg Prod.fst (Option.some.inj h)
      subst ha
      refine ⟨?_, size_setN a id _⟩
      intro j
      rw [getN_setN]
      split
      · rename_i hcond
        rw [hcond.1]
      · rfl
    · rw [if_neg hleaf] at h
      cases hl : updateCountsList fuel a (getN a id).children with
      | none => rw [hl] at h; cases h
      | some p =>
        obtain ⟨a1, tot1⟩ := p
        rw [hl] at h
        simp only at h
        have ha : setN a1 id { getN a1 id with count := tot1 } = a' :=
          congrArg Prod.fst (Option.some.inj h)
        subst ha
        obtain ⟨hk1, hs1⟩ := ihl _ _ _ _ hl
        refine ⟨?_, by rw [size_setN]; exact hs1⟩
        intro j
        rw [getN_setN]
        split
        · rename_i hcond
          rw [hcond.1]
          exact hk1 id
        · exact hk1 j

theorem uclKids (fuel : Nat) :
    ∀ (l : List (Int × Nat)) (a a' : Array Node) (s : Int),
      updateCountsList fuel a l = some (a', s) →
      (∀ j, (getN a' j).children = (getN a j).children) ∧ a'.size = a.size := by
  intro l
  induction l with
  | nil =>
    intro a a' s h
    simp only [updateCountsList] at h
    have ha : a = a' := congrArg Prod.fst (Option.some.inj h)
    subst ha
    exact ⟨fun _ => rfl, rfl⟩
  | cons kv rest ihrest =>
    intro a a' s h
    simp only [updateCountsList] at h
    cases hu : updateCounts fuel a kv.2 with
    | none => rw [hu] at h; cases h
    | some p =>
      obtain ⟨a1, cnt⟩ := p
      rw [hu] at h
      simp only at h
      cases hl : updateCountsList fuel a1 rest with
      | none => rw [hl] at h; cases h
      | some q =>
        obtain ⟨a2, s2⟩ := q
        rw [hl] at h
        simp only at h
        have ha : a2 = a' := congrArg Prod.fst (Option.some.inj h)
        subst ha
        obtain ⟨hk1, hs1⟩ := ucKids fuel a kv.2 a1 cnt hu
        obtain ⟨hk2, hs2⟩ := ihrest a1 a2 s2 hl
        exact ⟨fun j => (hk2 j).trans (hk1 j), hs2.trans hs1⟩

theorem countsOk_append (a : Array Node) (l1 l2 : List Nat)
    (h1 : countsOk a l1) (h2 : countsOk a l2) : countsOk a (l1 ++ l2) := by
  intro id hid
  rcases List.mem_append.mp hid with h | h
  · exact h1 id h
  · exact h2 id h

theorem countsOk_transfer (a1 a2 : Array Node) (r : List Nat)
    (hok : countsOk a1 r)
    (heq : ∀ j ∈ r, getN a2 j = getN a1 j)
    (hcl : ∀ j ∈ r, ∀ kv ∈ (getN a1 j).children, kv.2 ∈ r) :
    countsOk a2 r := by
  intro id hid
  rw [heq id hid]
  obtain ⟨h1, h2⟩ := hok id hid
  refine ⟨h1, fun hne => ?_⟩
  rw [h2 hne]
  congr 1
  apply List.map_congr_left
  intro kv hkv
  rw [heq kv.2 (hcl id hid kv hkv)]

/-- The heart of C8: a successful `_update_node_counts` from `id`
touches exactly the nodes its post-order traversal reaches, sets
`count(id)` to its return value, and — when the reached ids form a
duplicate-free, in-bounds list (i.e. the structure is a tree laid out
in the arena) — establishes the leaf/internal count invariant on every
reached node. -/
theorem ucMain : ∀ (fuel : Nat) (a : Array Node) (id : Nat)
    (a' : Array Node) (tot : Int),
    updateCounts fuel a id = some (a', tot) →
    ∃ r, reach fuel a id = some r ∧
      (∀ j, j ∉ r → getN a' j = getN a j) ∧
      (r.Nodup → (∀ j ∈ r, j < a.size) →
        (getN a' id).count = tot ∧ countsOk a' r) := by
  intro fuel
  induction fuel with
  | zero => intro a id a' tot h; cases h
  | succ fuel ih =>
    have ihl : ∀ (l : List (Int × Nat)) (a a' : Array Node) (s : Int),
        updateCountsList fuel a l = some (a', s) →
        ∃ ls, l.mapM (fun kv => reach fuel a kv.2) = some ls ∧
          (∀ j, j ∉ ls.flatten → getN a' j = getN a j) ∧
          (ls.flatten.Nodup → (∀ j ∈ ls.flatten, j < a.size) →
            countsOk a' ls.flatten ∧
            (l.map (fun kv => (getN a' kv.2).count)).sum = s) := by
      intro l
      induction l with
      | nil =>
        intro a a' s h
        simp only [updateCountsList] at h
        have ha : a = a' := congrArg Prod.fst (Option.some.inj h)
        have hs : (0 : Int) = s := congrArg Prod.snd (Option.some.inj h)
        subst ha
        refine ⟨[], rfl, fun j _ => rfl, fun _ _ => ?_⟩
        refine ⟨fun id hid => absurd hid (by simp), by simp [← hs]⟩
      | cons kv rest ihrest =>
        intro a a' s h
        simp only [updateCountsList] at h
        cases hu : updateCounts fuel a kv.2 with
        | none => rw [hu] at h; cases h
        | some p =>
          obtain ⟨a1, cnt⟩ := p
          rw [hu] at h
          simp only at h
          cases hl : updateCountsList fuel a1 rest with
          | none => rw [hl] at h; cases h
          | some q =>
            obtain ⟨a2, s2⟩ := q
            rw [hl] at h
            simp only at h
            have ha : a2 = a' := congrArg Prod.fst (Option.some.inj h)
            have hs : cnt + s2 = s := congrArg Prod.snd (Option.some.inj h)
            subst ha
            obtain ⟨r1, hr1, hu1, hgood1⟩ := ih a kv.2 a1 cnt hu
            obtain ⟨ls2, hls2, hu2, hgood2⟩ := ihrest a1 a2 s2 hl
            obtain ⟨hk1, hsz1⟩ := ucKids fuel a kv.2 a1 cnt hu
            have hls2a : rest.mapM (fun kv => reach fuel a kv.2) = some ls2 := by
              rw [mapM_option_congr (fun kv => reach fuel a kv.2)
                (fun kv => reach fuel a1 kv.2) rest
                (fun kv _ => (reach_congr a a1 hk1 fuel kv.2).symm)]
              exact hls2
            refine ⟨r1 :: ls2, ?_, ?_, ?_⟩
            · rw [List.mapM_cons, hr1, hls2a]
              rfl
            · intro j hj
              rw [List.flatten_cons, List.mem_append] at hj
              push_neg at hj
              obtain ⟨hj1, hj2⟩ := hj
              rw [hu2 j hj2, hu1 j hj1]
            · intro hnd hbnd
              rw [List.flatten_cons] at hnd hbnd ⊢
              rw [List.nodup_append] at hnd
              obtain ⟨hnd1, hnd2, hdisj⟩ := hnd
              have hbnd1 : ∀ j ∈ r1, j < a.size := fun j hj =>
                hbnd j (List.mem_append.mpr (Or.inl hj))
              have hbnd2 : ∀ j ∈ ls2.flatten, j < a1.size := fun j hj => by
                rw [hsz1]
                exact hbnd j (List.mem_append.mpr (Or.inr hj))
              obtain ⟨hcnt1, hok1⟩ := hgood1 hnd1 hbnd1
              obtain ⟨hok2, hsum2⟩ := hgood2 hnd2 hbnd2
              constructor
              · apply countsOk_append
                · refine countsOk_transfer a1 a2 r1 hok1 ?_ ?_
                  · intro j hj
                    exact hu2 j (fun hc => hdisj hj hc)
                  · intro j hj kv' hkv'
                    rw [hk1 j] at hkv'
                    exact reach_closed fuel a kv.2 r1 hr1 j hj kv' hkv'
                · exact hok2
              · rw [List.map_cons, List.sum_cons]
                have hkv2r1 : kv.2 ∈ r1 := reach_mem_self fuel a kv.2 r1 hr1
                have heq2 : getN a2 kv.2 = getN a1 kv.2 :=
                  hu2 kv.2 (fun hc => hdisj hkv2r1 hc)
                rw [heq2, hcnt1, hsum2, hs]
    intro a id a' tot h
    rw [updateCounts_succ] at h
    by_cases hleaf : (getN a id).children = []
    · rw [if_pos hleaf] at h
      have ha : setN a id { getN a id with count := 1 } = a' :=
        congrArg Prod.fst (Option.some.inj h)
      have ht : (1 : Int) = tot := congrArg Prod.snd (Option.some.inj h)
      subst ha
      refine ⟨[id], ?_, ?_, ?_⟩
      · rw [reach, hleaf]
        rfl
      · intro j hj
        exact getN_setN_ne a id _ j (by simpa using hj)
      · intro _ hbnd
        have hid : id < a.size := hbnd id (by simp)
        rw [getN_setN_self a id _ hid]
        refine ⟨ht, ?_⟩
        intro id' hid'
        have hii : id' = id := by simpa using hid'
        subst hii
        rw [getN_setN_self a id' _ hid]
        exact ⟨fun _ => rfl, fun hne => absurd hleaf hne⟩
    · rw [if_neg hleaf] at h
      cases hl : updateCountsList fuel a (getN a id).children with
      | none => rw [hl] at h; cases h
      | some p =>
        obtain ⟨a1, tot1⟩ := p
        rw [hl] at h
        simp only at h
        have ha : setN a1 id { getN a1 id with count := tot1 } = a' :=
          congrArg Prod.fst (Option.some.inj h)
        have ht : tot1 = tot := congrArg Prod.snd (Option.some.inj h)
        subst ha
        subst ht
        obtain ⟨ls, hls, hu1, hgood⟩ := ihl _ _ _ _ hl
        obtain ⟨hk1, hsz1⟩ := uclKids fuel _ _ _ _ hl
        refine ⟨id :: ls.flatten, ?_, ?_, ?_⟩
        · rw [reach, hls]
          rfl
        · intro j hj
          rw [List.mem_cons] at hj
          push_neg at hj
          obtain ⟨hj1, hj2⟩ := hj
          rw [getN_setN_ne _ _ _ _ hj1]
          exact hu1 j hj2
        · intro hnd hbnd
          rw [List.nodup_cons] at hnd
          obtain ⟨hidnot, hndf⟩ := hnd
          have hid : id < a.size := hbnd id (List.mem_cons_self _ _)
          have hida1 : id < a1.size := by rw [hsz1]; exact hid
          obtain ⟨hokf, hsum⟩ := hgood hndf
            (fun j hj => hbnd j (List.mem_cons_of_mem _ hj))
          have hchmem : ∀ kv ∈ (getN a id).children, kv.2 ∈ ls.flatten := by
            intro kv hkv
            obtain ⟨rc, hrc, hre⟩ := (mapM_option_mem _ _ _ hls).1 kv hkv
            exact List.mem_flatten.mpr ⟨rc, hrc, reach_mem_self fuel a kv.2 rc hre⟩
          constructor
          · rw [getN_setN_self a1 id _ hida1]
          · intro id' hid'
            rw [List.mem_cons] at hid'
            rcases hid' with rfl | hid'f
            · rw [getN_setN_self a1 id' _ hida1]
              constructor
              · intro hc
                have hc' : (getN a id').children = [] := by
                  rw [← hk1 id']
                  exact hc
                exact absurd hc' hleaf
              · intro _
                show tot1 =
                  (({ getN a1 id' with count := tot1 }).children.map
                    (fun kv : Int × Nat =>
                      (getN (setN a1 id' { getN a1 id' with count := tot1 }) kv.2).count)).sum
                have hch1 : ({ getN a1 id' with count := tot1 }).children =
                    (getN a id').children := hk1 id'
                rw [hch1, ← hsum]
                apply congrArg
                apply List.map_congr_left
                intro kv hkv
                have hkvf : kv.2 ∈ ls.flatten := hchmem kv hkv
                rw [getN_setN_ne a1 id' _ kv.2 (fun hji => hidnot (hji ▸ hkvf))]
            · refine countsOk_transfer a1 _ ls.flatten hokf ?_ ?_ id' hid'f
              · intro j hj
                exact getN_setN_ne a1 id _ j (fun hji => hidnot (hji ▸ hj))
              · intro j hj kv hkv
                rw [hk1 j] at hkv
                exact flatten_reach_closed fuel a _ ls hls j hj kv hkv

/-- C8: after `extend(seq_id, tokens)` with non-empty `tokens`
completes, the single post-order `_update_node_counts` pass has
established `count(leaf) = 1` and `count(internal) = Σ count(children)`
for every node reachable from the root — whenever the reachable ids
form a duplicate-free, in-bounds list (every node has one parent),
which is how Ukkonen lays the tree out in the arena. -/
theorem C8_extend_count_invariant (fuel : Nat) (st st' : Tree) (seqId : Int)
    (tokens : List Int) (hne : tokens ≠ [])
    (hext : Tree.extend fuel st seqId tokens = some st')
    (root : Nat) (hroot : st'.root = some root)
    (r : List Nat) (hreach : reach fuel st'.arena root = some r)
    (hnodup : r.Nodup) (hbounds : ∀ j ∈ r, j < st'.arena.size) :
    countsOk st'.arena r := by
  rw [Tree.extend, if_neg hne] at hext
  cases hc : extendCore fuel st seqId tokens with
  | none => rw [hc] at hext; cases hext
  | some q =>
    obtain ⟨arena0, root0, seqs2, states2⟩ := q
    rw [hc] at hext
    simp only at hext
    cases hu : updateCounts fuel arena0 root0 with
    | none => rw [hu] at hext; cases hext
    | some p =>
      obtain ⟨arena2, tot⟩ := p
      rw [hu] at hext
      simp only at hext
      have hst : ({ arena := arena2
                    root := some root0
                    seqs := seqs2
                    states := states2
                    bulkAllocated := true } : Tree) = st' :=
        Option.some.inj hext
      subst hst
      simp only at hroot hreach hbounds ⊢
      have hroot0 : root0 = root := Option.some.inj hroot
      subst hroot0
      obtain ⟨hk, hsz⟩ := ucKids fuel arena0 root0 arena2 tot hu
      have hreach0 : reach fuel arena0 root0 = some r := by
        rw [← reach_congr arena0 arena2 hk fuel root0]
        exact hreach
      obtain ⟨r0, hr0, _, hgood⟩ := ucMain fuel arena0 root0 arena2 tot hu
      rw [hr0] at hreach0
      have hrr : r0 = r := Option.some.inj hreach0
      subst hrr
      exact (hgood hnodup (fun j hj => by rw [← hsz]; exact hbounds j hj)).2

theorem C8_extend_count_invariant_witness :
    countsOk ((Tree.extend 32 emptyTree 0 [1, 2, 1]).getD emptyTree).arena
      ((reach 32 ((Tree.extend 32 emptyTree 0 [1, 2, 1]).getD emptyTree).arena 0).getD
        []) :=
  C8_extend_count_invariant 32 emptyTree
    ((Tree.extend 32 emptyTree 0 [1, 2, 1]).getD emptyTree) 0 [1, 2, 1]
    (by decide) (by decide) 0 (by decide) _ (by decide) (by decide) (by decide)

end SpecRL
